import Mathlib

set_option maxRecDepth 8000

/-!
Verification of the terraphim lexical indexing and matching engine
(autocomplete index, fuzzy matchers, multi-pattern scanner, link rewriter,
paragraph extractor) as exposed through the `terraphim_automata` Python API.

The engine itself is native code that is not part of the visible Python
sources; the definitions below are modelled from the specification,
reconciled with the behaviour asserted by the repository's test suite
(`python/tests/test_autocomplete.py`, `test_matcher.py`, `test_thesaurus.py`).
Texts and terms are modelled as `List Char` (character sequences, matching
Python string indexing); case folding is ASCII lower-casing (`Char.toLower`);
scores are rationals built with `mkRat` so that every operation is
kernel-executable.
-/

/-- An entry of the thesaurus: numeric id, normalized term, optional URL. -/
structure ThesaurusEntry where
  id : Nat
  nterm : String
  url : Option String
deriving DecidableEq

/-- Modelled from the spec: a named collection mapping surface terms to
canonical entries.  The `data` field is the term → entry mapping, in
insertion order. -/
structure Thesaurus where
  name : String
  data : List (String × ThesaurusEntry)
deriving DecidableEq

/-- ASCII case folding of a character sequence. -/
def foldChars (l : List Char) : List Char := l.map Char.toLower

/-- Fold the input unless the index is case sensitive. -/
def foldCase (cs : Bool) (l : List Char) : List Char :=
  if cs then l else foldChars l

/-- Helper for `splitWords`: accumulates the current word (reversed). -/
def splitWordsAux : List Char → List Char → List (List Char)
  | [], acc => [acc.reverse]
  | c :: rest, acc =>
    if c = ' ' then acc.reverse :: splitWordsAux rest []
    else splitWordsAux rest (c :: acc)

/-- Split a character sequence into its space-separated words. -/
def splitWords (l : List Char) : List (List Char) := splitWordsAux l []

/-- Modelled from the spec: the searchable keys the index derives from one
thesaurus term: the (folded) term itself together with each of its
space-separated words.  Indexing the individual words is what makes
`search "learn"` find `"machine learning"` and `search "driven"` find
`"test driven development"`, as the repository's tests require
(`test_thesaurus.py`, `TestIntegration.test_real_world_thesaurus`). -/
def indexKeys (cs : Bool) (term : String) : List (List Char) :=
  let k := foldCase cs term.data
  k :: splitWords k

/-- `startsWithB p l` decides whether `p` is a leading segment of `l`. -/
def startsWithB : List Char → List Char → Bool
  | [], _ => true
  | _ :: _, [] => false
  | p :: ps, c :: cs => p == c && startsWithB ps cs

/-- Does any index key of the entry start with the (already folded) query? -/
def keyMatches (q : List Char) (keys : List (List Char)) : Bool :=
  keys.any (fun k => startsWithB q k)

/-- Modelled from the spec: the autocomplete score.  The spec leaves the
numeric scale an implementation choice, requiring only that exact matches
are favored and that shorter terms rank above longer ones, with ordering
resolved deterministically.  We use `2` for an exact key match and
`1 / (length + 1)` otherwise. -/
def searchScore (q : List Char) (term : String) (keys : List (List Char)) : ℚ :=
  if keys.any (fun k => k == q) then mkRat 2 1
  else mkRat 1 (term.data.length + 1)

/-- A single autocomplete result, as exposed by the Python API. -/
structure AutocompleteResult where
  term : String
  normalized_term : String
  id : Nat
  url : Option String
  score : ℚ
deriving DecidableEq

/-- Strict lexicographic order on character sequences (by code point). -/
def lexLtB : List Char → List Char → Bool
  | _, [] => false
  | [], _ :: _ => true
  | a :: as, b :: bs =>
    if a.toNat < b.toNat then true
    else if b.toNat < a.toNat then false
    else lexLtB as bs

/-- Result ordering: descending score, ties broken by ascending
lexicographic order on the term text. -/
def resultLe (a b : AutocompleteResult) : Prop :=
  b.score < a.score ∨ (a.score = b.score ∧ lexLtB b.term.data a.term.data = false)

instance : DecidableRel resultLe := fun a b =>
  show Decidable (b.score < a.score ∨
    (a.score = b.score ∧ lexLtB b.term.data a.term.data = false)) from inferInstance

instance : IsTotal AutocompleteResult resultLe where
  total := by
    have lexnb : ∀ a b : List Char,
        lexLtB a b = true → lexLtB b a = true → False := by
      intro a b
      induction a generalizing b with
      | nil =>
        intro h1 h2
        cases b with
        | nil => simp [lexLtB] at h1
        | cons c cs => simp [lexLtB] at h2
      | cons x xs ih =>
        intro h1 h2
        cases b with
        | nil => simp [lexLtB] at h1
        | cons y ys =>
          simp only [lexLtB] at h1 h2
          by_cases hxy : x.toNat < y.toNat
          · rw [if_neg (by omega : ¬ y.toNat < x.toNat), if_pos hxy] at h2
            simp at h2
          · by_cases hyx : y.toNat < x.toNat
            · rw [if_neg hxy, if_pos hyx] at h1
              simp at h1
            · rw [if_neg hxy, if_neg hyx] at h1
              rw [if_neg hyx, if_neg hxy] at h2
              exact ih ys h1 h2
    intro a b
    rcases lt_trichotomy a.score b.score with h | h | h
    · exact Or.inr (Or.inl h)
    · cases hlt : lexLtB b.term.data a.term.data with
      | false => exact Or.inl (Or.inr ⟨h, hlt⟩)
      | true =>
        refine Or.inr (Or.inr ⟨h.symm, ?_⟩)
        cases hlt' : lexLtB a.term.data b.term.data with
        | false => rfl
        | true => exact absurd (lexnb _ _ hlt' hlt) (by simp)
    · exact Or.inl (Or.inl h)

instance : IsTrans AutocompleteResult resultLe where
  trans := by
    have lexnt : ∀ a b c : List Char,
        lexLtB a b = false → lexLtB b c = false → lexLtB a c = false := by
      intro a b c
      induction a generalizing b c with
      | nil =>
        intro h1 h2
        cases b with
        | nil => exact h2
        | cons y ys => simp [lexLtB] at h1
      | cons x xs ih =>
        intro h1 h2
        cases b with
        | nil =>
          cases c with
          | nil => rfl
          | cons z zs => simp [lexLtB] at h2
        | cons y ys =>
          cases c with
          | nil => rfl
          | cons z zs =>
            simp only [lexLtB] at h1 h2 ⊢
            by_cases hxy : x.toNat < y.toNat
            · rw [if_pos hxy] at h1; simp at h1
            · rw [if_neg hxy] at h1
              by_cases hyz : y.toNat < z.toNat
              · rw [if_pos hyz] at h2; simp at h2
              · rw [if_neg hyz] at h2
                rw [if_neg (by omega : ¬ x.toNat < z.toNat)]
                by_cases hzx : z.toNat < x.toNat
                · rw [if_pos hzx]
                · rw [if_neg hzx]
                  rw [if_neg (by omega : ¬ y.toNat < x.toNat)] at h1
                  rw [if_neg (by omega : ¬ z.toNat < y.toNat)] at h2
                  exact ih _ _ h1 h2
    intro a b c hab hbc
    rcases hab with hab | ⟨hab, hab'⟩
    · rcases hbc with hbc | ⟨hbc, _⟩
      · exact Or.inl (lt_trans hbc hab)
      · exact Or.inl (hbc ▸ hab)
    · rcases hbc with hbc | ⟨hbc, hbc'⟩
      · exact Or.inl (hab ▸ hbc)
      · exact Or.inr ⟨hab.trans hbc, lexnt _ _ _ hbc' hab'⟩

/-- Rank results: descending score, lexicographic tie-break. -/
def rankResults (rs : List AutocompleteResult) : List AutocompleteResult :=
  List.insertionSort resultLe rs

/-- Optional truncation by `max_results`; `none` means unbounded. -/
def truncateResults : Option Nat → List AutocompleteResult → List AutocompleteResult
  | none, l => l
  | some k, l => l.take k

/-- Build the result record for an entry matched by a prefix search. -/
def mkSearchResult (cs : Bool) (q : List Char) (t : String) (e : ThesaurusEntry) :
    AutocompleteResult :=
  { term := t, normalized_term := e.nterm, id := e.id, url := e.url,
    score := searchScore q t (indexKeys cs t) }

/-- The autocomplete index: name, build-time case sensitivity, and the
indexed entries. -/
structure AutocompleteIndex where
  name : String
  case_sensitive : Bool
  entries : List (String × ThesaurusEntry)
deriving DecidableEq

/-- Modelled from the spec: `build_index` over an already-parsed thesaurus.
Case sensitivity is fixed here, for the lifetime of the index. -/
def build_index (th : Thesaurus) (case_sensitive : Bool) : AutocompleteIndex :=
  { name := th.name, case_sensitive := case_sensitive, entries := th.data }

/-- Modelled from the spec: prefix autocomplete.  Folds the query unless the
index is case sensitive, keeps the entries one of whose index keys starts
with the query, ranks by descending score with a lexicographic tie-break,
and truncates to `max_results`. -/
def AutocompleteIndex.search (idx : AutocompleteIndex) (p : String)
    (max_results : Option Nat) : List AutocompleteResult :=
  let q := foldCase idx.case_sensitive p.data
  truncateResults max_results (rankResults
    ((idx.entries.filter
        (fun te => keyMatches q (indexKeys idx.case_sensitive te.1))).map
      (fun te => mkSearchResult idx.case_sensitive q te.1 te.2)))

/-- First index `j` with `lo ≤ j ≤ lo + fuel - 1` such that `s2[j] = c` and
`j` is not yet used.  Out-of-range accesses read `used` as `true`, so they
never match. -/
def findMatchIdx (c : Char) (s2 : List Char) (used : List Bool) :
    Nat → Nat → Option Nat
  | _, 0 => none
  | j, fuel + 1 =>
    if (s2.getD j ' ') == c && !(used.getD j true) then some j
    else findMatchIdx c s2 used (j + 1) fuel

/-- The greedy Jaro matching pass: for each character of `s1` (at index
`i`), find the first unused position of `s2` within the window
`|i - j| ≤ win` holding an equal character; returns the matched
`(character, s2-index)` pairs in `s1` order. -/
def jaroPairs (s2 : List Char) (win : Nat) :
    List Char → Nat → List Bool → List (Char × Nat)
  | [], _, _ => []
  | c :: rest, i, used =>
    let lo := i - win
    let hi := min (i + win) (s2.length - 1)
    match findMatchIdx c s2 used lo (hi + 1 - lo) with
    | some j => (c, j) :: jaroPairs s2 win rest (i + 1) (used.set j true)
    | none => jaroPairs s2 win rest (i + 1) used

/-- Positions at which two equal-length sequences disagree (the raw
transposition count; canonical transpositions are half of this). -/
def countMismatches (a b : List Char) : Nat :=
  (a.zip b).countP (fun p => !(p.1 == p.2))

/-- Length of the common prefix of two sequences. -/
def commonPrefixLen : List Char → List Char → Nat
  | a :: as, b :: bs => if a == b then commonPrefixLen as bs + 1 else 0
  | _, _ => 0

/-- The sorted `s2`-side indices matched by the Jaro pass. -/
def jaroMatchedIdx (ps : List (Char × Nat)) : List Nat :=
  List.insertionSort (fun a b : Nat => a ≤ b) (ps.map Prod.snd)

/-- The Jaro matching pass of `s1` against `s2`, from the start, with the
canonical window `max(|s1|,|s2|)/2 - 1` and no position yet used. -/
def jaroRun (s1 s2 : List Char) : List (Char × Nat) :=
  jaroPairs s2 (max s1.length s2.length / 2 - 1) s1 0
    (List.replicate s2.length false)

/-- The matching-character count `m` and the raw transposition count `t'`
(canonical transpositions are `t' / 2`) of the Jaro pass. -/
def jaroCounts (s1 s2 : List Char) : Nat × Nat :=
  let ps := jaroRun s1 s2
  (ps.length,
   countMismatches (ps.map Prod.fst)
     ((jaroMatchedIdx ps).map (fun j => s2.getD j ' ')))

/-- Modelled from the spec: canonical Jaro-Winkler similarity, computed as
a single exact fraction.  With `m` matches, raw transposition count `t'`
(canonical `t = t' / 2`), and common prefix length `l` (capped at 4), the
value equals `jaro + l/10 * (1 - jaro)` where
`jaro = (m/|s1| + m/|s2| + (m - t)/m) / 3`; the fraction below is that
expression over the common denominator (proved as
`jaroWinkler_eq_canonical`). -/
def jaroWinkler (s1 s2 : List Char) : ℚ :=
  if s1.isEmpty && s2.isEmpty then 1
  else
    let m := (jaroCounts s1 s2).1
    if m = 0 then 0
    else
      let t' := (jaroCounts s1 s2).2
      let n1 := s1.length
      let n2 := s2.length
      let l := min (commonPrefixLen s1 s2) 4
      let jaroN := 2 * m * m * n2 + 2 * m * m * n1 + (2 * m - t') * n1 * n2
      let jaroD := 6 * m * n1 * n2
      mkRat (Int.ofNat (10 * jaroN + l * (jaroD - jaroN))) (10 * jaroD)

/-- The canonical Jaro-Winkler formula written with field operations, as
the spec words it: Jaro similarity from the matching-character and
transposition counts within the window, plus the prefix bonus
`0.1 * l * (1 - jaro)` with `l` the common prefix length capped at 4. -/
def jaroWinklerCanonical (s1 s2 : List Char) : ℚ :=
  if s1.isEmpty && s2.isEmpty then 1
  else
    let m := (jaroCounts s1 s2).1
    if m = 0 then 0
    else
      let t : ℚ := ((jaroCounts s1 s2).2 : ℚ) / 2
      let l := min (commonPrefixLen s1 s2) 4
      let jaro : ℚ :=
        ((m : ℚ) / s1.length + (m : ℚ) / s2.length + ((m : ℚ) - t) / m) / 3
      jaro + (l : ℚ) / 10 * (1 - jaro)

/-- Kernel-executable maximum of two rationals. -/
def qmax (a b : ℚ) : ℚ := if a ≤ b then b else a

/-- Modelled from the spec: an entry's fuzzy score is the best
Jaro-Winkler similarity between the folded query and any of the entry's
index keys (the folded term and each of its words) — the fuzzy matchers
query the same term set as the autocomplete index. -/
def fuzzyScore (cs : Bool) (q : List Char) (term : String) : ℚ :=
  match indexKeys cs term with
  | [] => 0
  | k :: ks => ks.foldl (fun acc k' => qmax acc (jaroWinkler q k')) (jaroWinkler q k)

/-- Build the result record for a Jaro-Winkler fuzzy hit. -/
def mkFuzzyResult (cs : Bool) (q : List Char) (t : String) (e : ThesaurusEntry) :
    AutocompleteResult :=
  { term := t, normalized_term := e.nterm, id := e.id, url := e.url,
    score := fuzzyScore cs q t }

/-- Modelled from the spec: `fuzzy_search(query, threshold, max_results)`:
keeps the entries whose fuzzy score reaches the threshold, orders by
descending score with a lexicographic tie-break, truncates. -/
def AutocompleteIndex.fuzzy_search (idx : AutocompleteIndex) (query : String)
    (threshold : ℚ) (max_results : Option Nat) : List AutocompleteResult :=
  let q := foldCase idx.case_sensitive query.data
  truncateResults max_results (rankResults
    ((idx.entries.filter
        (fun te => decide (threshold ≤ fuzzyScore idx.case_sensitive q te.1))).map
      (fun te => mkFuzzyResult idx.case_sensitive q te.1 te.2)))

/-- One row update of the Levenshtein dynamic program (`ca` is the current
character of the first string; `prev` is the previous row's tail;
`pj`/`dj` are the previous row's and the new row's last computed cells). -/
def levRowGo (ca : Char) : List Char → List Nat → Nat → Nat → List Nat
  | [], _, _, _ => []
  | _ :: _, [], _, _ => []
  | cj :: cbs, pj1 :: prest, pj, dj =>
    let djNext := min (min (pj1 + 1) (dj + 1)) (pj + if ca == cj then 0 else 1)
    djNext :: levRowGo ca cbs prest pj1 djNext

/-- One full row of the Levenshtein dynamic program. -/
def levRow (cb : List Char) (ca : Char) (prev : List Nat) : List Nat :=
  match prev with
  | [] => []
  | p0 :: prest => (p0 + 1) :: levRowGo ca cb prest p0 (p0 + 1)

/-- Levenshtein edit distance (insert / delete / substitute) between two
character sequences, by the standard dynamic program. -/
def levDistance (a b : List Char) : Nat :=
  (a.foldl (fun prev ca => levRow b ca prev) (List.range (b.length + 1))).getLastD 0

/-- Modelled from the spec: an entry's edit distance from the query is the
least Levenshtein distance between the folded query and any of the
entry's index keys. -/
def levScore (cs : Bool) (q : List Char) (term : String) : Nat :=
  match indexKeys cs term with
  | [] => 0
  | k :: ks => ks.foldl (fun acc k' => min acc (levDistance q k')) (levDistance q k)

/-- Build the result record for a Levenshtein fuzzy hit; the score is a
decreasing function of the distance so that ranking by descending score
orders by ascending distance. -/
def mkLevResult (cs : Bool) (q : List Char) (t : String) (e : ThesaurusEntry) :
    AutocompleteResult :=
  { term := t, normalized_term := e.nterm, id := e.id, url := e.url,
    score := mkRat 1 (levScore cs q t + 1) }

/-- Modelled from the spec: `fuzzy_search_levenshtein(query, max_distance,
max_results)`: keeps the entries within the distance bound, orders by
ascending distance (ties lexicographic), truncates. -/
def AutocompleteIndex.fuzzy_search_levenshtein (idx : AutocompleteIndex)
    (query : String) (max_distance : Nat) (max_results : Option Nat) :
    List AutocompleteResult :=
  let q := foldCase idx.case_sensitive query.data
  truncateResults max_results (rankResults
    ((idx.entries.filter
        (fun te => decide (levScore idx.case_sensitive q te.1 ≤ max_distance))).map
      (fun te => mkLevResult idx.case_sensitive q te.1 te.2)))

/-- The three-entry thesaurus of the spec's first concrete scenario. -/
def learnThesaurus : Thesaurus :=
  { name := "Engineering",
    data := [("machine learning",
                ⟨1, "machine learning", some "https://example.com/ml"⟩),
             ("deep learning",
                ⟨2, "deep learning", some "https://example.com/dl"⟩),
             ("reinforcement learning",
                ⟨3, "reinforcement learning", some "https://example.com/rl"⟩)] }

/-- The five-entry software-engineering thesaurus of
`test_thesaurus.py`, `TestIntegration.test_real_world_thesaurus`. -/
def realWorldThesaurus : Thesaurus :=
  { name := "Software Engineering",
    data := [("continuous integration",
                ⟨1, "continuous integration", some "https://example.com/ci"⟩),
             ("continuous deployment",
                ⟨2, "continuous deployment", some "https://example.com/cd"⟩),
             ("test driven development",
                ⟨3, "test driven development", some "https://example.com/tdd"⟩),
             ("behavior driven development",
                ⟨4, "behavior driven development", some "https://example.com/bdd"⟩),
             ("domain driven design",
                ⟨5, "domain driven design", some "https://example.com/ddd"⟩)] }

/-- A one-entry thesaurus holding only "machine learning". -/
def mlOnlyThesaurus : Thesaurus :=
  { name := "ML",
    data := [("machine learning",
                ⟨1, "machine learning", some "https://example.com/ml"⟩)] }

/-- `foldEqAt t l` decides whether the term `t` matches case-insensitively
at the start of `l`. -/
def foldEqAt : List Char → List Char → Bool
  | [], _ => true
  | _ :: _, [] => false
  | t :: ts, c :: cs => (t.toLower == c.toLower) && foldEqAt ts cs

/-- First candidate of maximal term length (later candidates replace the
current best only when strictly longer). -/
def pickLongest : List (String × ThesaurusEntry) →
    Option (String × ThesaurusEntry)
  | [] => none
  | p :: rest =>
    match pickLongest rest with
    | none => some p
    | some q =>
      if q.1.data.length > p.1.data.length then some q else some p

/-- Modelled from the spec: the longest nonempty thesaurus term matching
case-insensitively at the start of `pending`, with ties resolved to the
first such term in thesaurus order. -/
def bestMatchAt (pats : List (String × ThesaurusEntry))
    (pending : List Char) : Option (String × ThesaurusEntry) :=
  pickLongest (pats.filter
    (fun p => !p.1.data.isEmpty && foldEqAt p.1.data pending))

/-- One scanner match: matched term, its entry, and the character span
`[start, stop)` in the scanned text. -/
structure ScanMatch where
  term : String
  entry : ThesaurusEntry
  start : Nat
  stop : Nat
deriving DecidableEq

/-- Modelled from the spec: the single-pass leftmost-longest scan.  At the
current position the longest matching term (if any) is emitted and the
scan resumes right after its end; otherwise the scan advances one
character.  `fuel` bounds the recursion by the length of the remaining
text. -/
def scanFuel (pats : List (String × ThesaurusEntry)) :
    Nat → List Char → Nat → List ScanMatch
  | 0, _, _ => []
  | _ + 1, [], _ => []
  | fuel + 1, c :: rest, pos =>
    match bestMatchAt pats (c :: rest) with
    | some (t, e) =>
      ⟨t, e, pos, pos + t.data.length⟩ ::
        scanFuel pats fuel ((c :: rest).drop t.data.length)
          (pos + t.data.length)
    | none => scanFuel pats fuel rest (pos + 1)

/-- Scan a whole text for thesaurus-term occurrences. -/
def scanText (th : Thesaurus) (text : List Char) : List ScanMatch :=
  scanFuel th.data text.length text 0

/-- A match as exposed by the Python API. -/
structure Matched where
  term : String
  normalized_term : String
  id : Nat
  url : Option String
  pos : Option (Nat × Nat)
deriving DecidableEq

/-- Modelled from the spec: `find_all_matches(text, thesaurus,
return_positions)`. -/
def find_all_matches (text : String) (th : Thesaurus)
    (return_positions : Bool) : List Matched :=
  (scanText th text.data).map (fun m =>
    { term := m.term, normalized_term := m.entry.nterm, id := m.entry.id,
      url := m.entry.url,
      pos := if return_positions then some (m.start, m.stop) else none })

/-- The four recognized link formats. -/
def linkTypes : List String := ["markdown", "html", "wiki", "plain"]

/-- Modelled from the spec: the replacement string for one match. -/
def formatLink (link_type : String) (t : String) (e : ThesaurusEntry) :
    String :=
  if link_type = "markdown" then
    "[" ++ t ++ "](" ++ e.url.getD "" ++ ")"
  else if link_type = "html" then
    "<a href=\"" ++ e.url.getD "" ++ "\">" ++ t ++ "</a>"
  else if link_type = "wiki" then
    "[[" ++ t ++ "]]"
  else e.nterm

/-- Modelled from the spec: the rewriting pass, one character at a time:
a match is replaced by its formatted link and skipped; an unmatched
character is copied unchanged. -/
def replaceFuel (pats : List (String × ThesaurusEntry)) (lt : String) :
    Nat → List Char → List Char
  | 0, _ => []
  | _ + 1, [] => []
  | fuel + 1, c :: rest =>
    match bestMatchAt pats (c :: rest) with
    | some (t, e) =>
      (formatLink lt t e).data ++
        replaceFuel pats lt fuel ((c :: rest).drop t.data.length)
    | none => c :: replaceFuel pats lt fuel rest

/-- Reassembly of the rewritten text directly from the scanner's match
list: the unmatched gap before each match is kept verbatim, the matched
span is replaced by its formatted link, and the tail after the last match
is kept verbatim. -/
def spliceMatches (lt : String) (text : List Char) :
    List ScanMatch → Nat → List Char
  | [], cur => text.drop cur
  | m :: rest, cur =>
    (text.drop cur).take (m.start - cur) ++ (formatLink lt m.term m.entry).data
      ++ spliceMatches lt text rest m.stop

/-- Modelled from the spec: `replace_with_links(text, thesaurus,
link_type)`; fails with `InvalidArgument` exactly on an unrecognized link
type. -/
def replace_with_links (text : String) (th : Thesaurus)
    (link_type : String) : Except String String :=
  if link_type ∈ linkTypes then
    Except.ok (String.mk (replaceFuel th.data link_type text.data.length
      text.data))
  else Except.error ("Invalid link type: " ++ link_type)

/-- Helper for `splitParas`: accumulates the current paragraph (reversed)
and starts a new one at each double newline. -/
def splitParasAux : List Char → List Char → List (List Char)
  | [], acc => [acc.reverse]
  | [c], acc => [(c :: acc).reverse]
  | c1 :: c2 :: rest, acc =>
    if c1 = '\n' ∧ c2 = '\n' then acc.reverse :: splitParasAux rest []
    else splitParasAux (c2 :: rest) (c1 :: acc)

/-- Split a text into paragraphs at double-newline boundaries. -/
def splitParas (l : List Char) : List (List Char) := splitParasAux l []

/-- Modelled from the spec: `extract_paragraphs(text, thesaurus)`: one
`(term, fragment)` pair per match occurrence per paragraph, the fragment
running from the match's start to the paragraph's end. -/
def extract_paragraphs (text : String) (th : Thesaurus) :
    List (String × String) :=
  (splitParas text.data).flatMap (fun p =>
    (scanText th p).map (fun m => (m.term, String.mk (p.drop m.start))))

/-- Whether the term `t` occurs (case-insensitively) anywhere in the text. -/
def occursB (t : List Char) : List Char → Bool
  | [] => foldEqAt t []
  | c :: rest => foldEqAt t (c :: rest) || occursB t rest

/-- The three-entry thesaurus of `test_matcher.py`. -/
def matcherThesaurus : Thesaurus :=
  { name := "Engineering",
    data := [("machine learning",
                ⟨1, "machine learning", some "https://example.com/ml"⟩),
             ("deep learning",
                ⟨2, "deep learning", some "https://example.com/dl"⟩),
             ("artificial intelligence",
                ⟨3, "artificial intelligence", some "https://example.com/ai"⟩)] }

/-- Modelled from the spec: the JSON values the external loader consumes
(numbers restricted to the naturals used by entry ids). -/
inductive Json where
  | str (s : String)
  | num (n : Nat)
  | obj (fields : List (String × Json))
  | arr (elems : List Json)
  | jbool (b : Bool)
  | null

/-- First binding of the key in a JSON object's field list. -/
def lookupField : List (String × Json) → String → Option Json
  | [], _ => none
  | (k', v) :: rest, k => if k' = k then some v else lookupField rest k

/-- A JSON value expected to be a number. -/
def asNum : Option Json → Option Nat
  | some (Json.num i) => some i
  | _ => none

/-- A JSON value expected to be a string. -/
def asStr : Option Json → Option String
  | some (Json.str s) => some s
  | _ => none

/-- A JSON value expected to be an object. -/
def asObj : Option Json → Option (List (String × Json))
  | some (Json.obj fs) => some fs
  | _ => none

/-- An optional URL field: absent, or a string. -/
def asOptUrl : Option Json → Option (Option String)
  | none => some none
  | some (Json.str u) => some (some u)
  | _ => none

/-- Modelled from the spec: parse one thesaurus entry
`{"id": int, "nterm": string, "url"?: string}`. -/
def parseEntry (j : Json) : Option ThesaurusEntry :=
  match j with
  | Json.obj fs =>
    match asNum (lookupField fs "id"), asStr (lookupField fs "nterm"),
        asOptUrl (lookupField fs "url") with
    | some i, some nt, some u => some ⟨i, nt, u⟩
    | _, _, _ => none
  | _ => none

/-- Parse the `data` object, entry by entry. -/
def parseData : List (String × Json) → Option (List (String × ThesaurusEntry))
  | [] => some []
  | (k, v) :: rest =>
    match parseEntry v, parseData rest with
    | some e, some es => some ((k, e) :: es)
    | _, _ => none

/-- Modelled from the spec: parse the thesaurus envelope
`{"name": string, "data": {...}}`. -/
def parseThesaurus (j : Json) : Option Thesaurus :=
  match j with
  | Json.obj fs =>
    match asStr (lookupField fs "name"), asObj (lookupField fs "data") with
    | some n, some ds =>
      match parseData ds with
      | some es => some ⟨n, es⟩
      | none => none
    | _, _ => none
  | _ => none

/-- Modelled from the spec: the shared load step of every entry point
that consumes thesaurus JSON.  The input is the parse outcome of the JSON
text: `none` stands for syntactically invalid JSON (the string-level
parser is external to the core); a parsed value must then satisfy the
schema.  Both failure modes produce a `LoadError` message prefixed
"Failed to load thesaurus: ". -/
def parseInput (input : Option Json) : Except String Thesaurus :=
  match input with
  | none => Except.error ("Failed to load thesaurus: " ++ "invalid JSON")
  | some j =>
    match parseThesaurus j with
    | none =>
      Except.error ("Failed to load thesaurus: " ++ "malformed thesaurus")
    | some th => Except.ok th

/-- Modelled from the spec: `load_thesaurus(json) -> (name, term_count)`. -/
def load_thesaurus (input : Option Json) : Except String (String × Nat) :=
  (parseInput input).map (fun th => (th.name, th.data.length))

/-- Modelled from the spec: `build_index(json, case_sensitive)`. -/
def build_index_json (input : Option Json) (case_sensitive : Bool) :
    Except String AutocompleteIndex :=
  (parseInput input).map (fun th => build_index th case_sensitive)

/-- Modelled from the spec: `find_all_matches(text, json,
return_positions)`. -/
def find_all_matches_json (text : String) (input : Option Json)
    (return_positions : Bool) : Except String (List Matched) :=
  (parseInput input).map (fun th => find_all_matches text th return_positions)

/-- Modelled from the spec: `replace_with_links(text, json, link_type)`. -/
def replace_with_links_json (text : String) (input : Option Json)
    (link_type : String) : Except String String :=
  (parseInput input).bind (fun th => replace_with_links text th link_type)

/-- Modelled from the spec: `extract_paragraphs(text, json)`. -/
def extract_paragraphs_json (text : String) (input : Option Json) :
    Except String (List (String × String)) :=
  (parseInput input).map (fun th => extract_paragraphs text th)

/-- The schema of one entry, stated independently of the parser: an
object with an integer `id`, a string `nterm`, and an optional string
`url`. -/
def entryWellFormed (j : Json) : Prop :=
  ∃ fs, j = Json.obj fs ∧
    (∃ i, lookupField fs "id" = some (Json.num i)) ∧
    (∃ s, lookupField fs "nterm" = some (Json.str s)) ∧
    (lookupField fs "url" = none ∨
      ∃ u, lookupField fs "url" = some (Json.str u))

/-- The schema of the thesaurus envelope, stated independently of the
parser: an object with a string `name` and an object `data` all of whose
values are well-formed entries. -/
def thesaurusWellFormed (j : Json) : Prop :=
  ∃ fs, j = Json.obj fs ∧
    (∃ n, lookupField fs "name" = some (Json.str n)) ∧
    (∃ ds, lookupField fs "data" = some (Json.obj ds) ∧
      ∀ kv ∈ ds, entryWellFormed kv.2)

/-- Malformed input: syntactically invalid JSON, or a JSON value that
misses the required structure. -/
def badInput (input : Option Json) : Prop :=
  input = none ∨ ∃ j, input = some j ∧ ¬ thesaurusWellFormed j

/-- The LoadError shape: an error whose message carries the
"Failed to load thesaurus: " prefix. -/
def isLoadError {α : Type} (x : Except String α) : Prop :=
  ∃ msg, x = Except.error msg ∧
    ∃ sfx, msg = "Failed to load thesaurus: " ++ sfx

/-- A well-formed thesaurus JSON value with one entry. -/
def goodJson : Json :=
  Json.obj [("name", Json.str "Test"),
            ("data", Json.obj
              [("term1", Json.obj [("id", Json.num 1),
                                   ("nterm", Json.str "normalized1")])])]

theorem rankResults_sorted (rs : List AutocompleteResult) :
    List.Sorted resultLe (rankResults rs) :=
  List.sorted_insertionSort resultLe rs

theorem rankResults_perm (rs : List AutocompleteResult) :
    (rankResults rs).Perm rs :=
  List.perm_insertionSort resultLe rs

theorem mem_rankResults {r : AutocompleteResult} {rs : List AutocompleteResult} :
    r ∈ rankResults rs ↔ r ∈ rs :=
  (rankResults_perm rs).mem_iff

theorem length_rankResults (rs : List AutocompleteResult) :
    (rankResults rs).length = rs.length :=
  (rankResults_perm rs).length_eq

/-- The unranked pool of prefix-search hits: one result per matching entry. -/
theorem search_mem_characterization (idx : AutocompleteIndex) (p : String)
    (r : AutocompleteResult) :
    r ∈ idx.search p none ↔
      ∃ t e, (t, e) ∈ idx.entries ∧
        keyMatches (foldCase idx.case_sensitive p.data)
          (indexKeys idx.case_sensitive t) = true ∧
        r = mkSearchResult idx.case_sensitive
          (foldCase idx.case_sensitive p.data) t e := by
  show r ∈ rankResults _ ↔ _
  rw [mem_rankResults, List.mem_map]
  constructor
  · rintro ⟨⟨t, e⟩, hte, hr⟩
    rw [List.mem_filter] at hte
    exact ⟨t, e, hte.1, hte.2, hr.symm⟩
  · rintro ⟨t, e, hte, hmatch, hr⟩
    exact ⟨(t, e), List.mem_filter.mpr ⟨hte, hmatch⟩, hr.symm⟩

/-- C2: for the index built from the thesaurus with exactly the terms
"machine learning" (id 1), "deep learning" (id 2) and
"reinforcement learning" (id 3), `search "learn"` returns all three
terms (here in their deterministic rank order). -/
theorem C2_search_learn_returns_all_three :
    (((build_index learnThesaurus false).search "learn" none).map
        (fun r => r.term) =
      ["deep learning", "machine learning", "reinforcement learning"]) ∧
    ((build_index learnThesaurus false).search "learn" none).length = 3 := by
  decide

/-- C10: case sensitivity is fixed at build time.  Over the single key
"Test" (normalized "test"), the case-sensitive index answers 1 result for
"Test" and 0 for "test"; the case-insensitive index answers 1 result for
each query. -/
theorem C10_case_sensitivity_build_time :
    (((build_index ⟨"Test", [("Test", ⟨1, "test", some "https://example.com/1"⟩)]⟩
        true).search "Test" none).length = 1) ∧
    (((build_index ⟨"Test", [("Test", ⟨1, "test", some "https://example.com/1"⟩)]⟩
        true).search "test" none).length = 0) ∧
    (((build_index ⟨"Test", [("Test", ⟨1, "test", some "https://example.com/1"⟩)]⟩
        false).search "Test" none).length = 1) ∧
    (((build_index ⟨"Test", [("Test", ⟨1, "test", some "https://example.com/1"⟩)]⟩
        false).search "test" none).length = 1) := by
  decide

/-- C1 counterexample: `search` does not return exactly the entries whose
term starts with the query.  On the real-world thesaurus the query
"driven" returns three entries ("test driven development",
"behavior driven development", "domain driven design"), none of whose
terms starts with "driven": the index also matches at word boundaries
inside the term, exactly as the repository's own test
(`TestIntegration.test_real_world_thesaurus`) requires of a "suffix
search". -/
theorem C1_counterexample_search_not_term_anchored :
    (((build_index realWorldThesaurus false).search "driven" none).length = 3) ∧
    (((build_index realWorldThesaurus false).search "driven" none).all
      (fun r => !(startsWithB (foldChars "driven".data)
                    (foldChars r.term.data))) = true) := by
  decide

/-- C1 (amended): `search(p, max_results)` returns exactly the entries one
of whose index keys — the case-folded (unless `case_sensitive`) term, or
one of its space-separated words — starts with the (likewise folded)
query; an empty query matches every entry.  Results are ordered by
descending score with a deterministic lexicographic tie-break on term
text, and `max_results` truncates the ordered list. -/
theorem C1_search_characterization (idx : AutocompleteIndex) (p : String)
    (k : Nat) :
    (idx.search p (some k) = (idx.search p none).take k) ∧
    List.Sorted resultLe (idx.search p none) ∧
    (∀ r, r ∈ idx.search p none ↔
      ∃ t e, (t, e) ∈ idx.entries ∧
        keyMatches (foldCase idx.case_sensitive p.data)
          (indexKeys idx.case_sensitive t) = true ∧
        r = mkSearchResult idx.case_sensitive
          (foldCase idx.case_sensitive p.data) t e) ∧
    (p.data = [] → ∀ t e, (t, e) ∈ idx.entries →
      keyMatches (foldCase idx.case_sensitive p.data)
        (indexKeys idx.case_sensitive t) = true) := by
  refine ⟨rfl, rankResults_sorted _, search_mem_characterization idx p, ?_⟩
  intro hp t e _
  have hq : foldCase idx.case_sensitive p.data = [] := by
    rw [hp]; cases idx.case_sensitive <;> rfl
  rw [hq]
  rfl

/-- Witness for C1: the amended characterization instantiated on the
real-world thesaurus with query "driven". -/
theorem C1_search_characterization_witness :
    ((build_index realWorldThesaurus false).search "driven" (some 2) =
      ((build_index realWorldThesaurus false).search "driven" none).take 2) ∧
    mkSearchResult false "driven".data "test driven development"
        ⟨3, "test driven development", some "https://example.com/tdd"⟩ ∈
      (build_index realWorldThesaurus false).search "driven" none :=
  ⟨(C1_search_characterization (build_index realWorldThesaurus false)
      "driven" 2).1,
   ((C1_search_characterization (build_index realWorldThesaurus false)
      "driven" 2).2.2.1 _).mpr
     ⟨"test driven development",
      ⟨3, "test driven development", some "https://example.com/tdd"⟩,
      by decide, by decide, by decide⟩⟩

example : levDistance "macine".data "machine".data = 1 := by decide

example : levScore false "macine".data "machine learning" = 1 := by decide

example : jaroWinkler "learning".data "learning".data = 1 := by decide

example : decide (jaroWinkler "learning".data (foldChars "machine learning".data)
    < mkRat 99 100) = true := by decide

example : ((build_index learnThesaurus false).fuzzy_search "machin"
    (mkRat 8 10) none).length = 1 := by decide

example : ((build_index learnThesaurus false).fuzzy_search_levenshtein "macine"
    2 none).map (fun r => r.term) = ["machine learning"] := by decide

theorem getD_set_true {l : List Bool} {j : Nat} (h : j < l.length) :
    (l.set j true).getD j true = true := by
  rw [List.getD_eq_getElem?_getD, List.getElem?_set_self h]
  rfl

theorem getD_set_other {l : List Bool} {i j : Nat} (h : i ≠ j) (a : Bool)
    (d : Bool) : (l.set i a).getD j d = l.getD j d := by
  rw [List.getD_eq_getElem?_getD, List.getElem?_set_ne h,
    List.getD_eq_getElem?_getD]

theorem findMatchIdx_some_unused {c : Char} {s2 : List Char}
    {used : List Bool} {fuel j j' : Nat}
    (h : findMatchIdx c s2 used j fuel = some j') :
    used.getD j' true = false := by
  induction fuel generalizing j with
  | zero => simp [findMatchIdx] at h
  | succ fuel ih =>
    rw [findMatchIdx] at h
    by_cases hc : ((s2.getD j ' ') == c && !(used.getD j true)) = true
    · rw [if_pos hc] at h
      cases h
      simp only [Bool.and_eq_true, Bool.not_eq_true'] at hc
      exact hc.2
    · rw [if_neg hc] at h
      exact ih h

theorem jaroPairs_cons_some {s2 : List Char} {win : Nat} {c : Char}
    {rest : List Char} {i : Nat} {used : List Bool} {j : Nat}
    (hfind : findMatchIdx c s2 used (i - win)
      (min (i + win) (s2.length - 1) + 1 - (i - win)) = some j) :
    jaroPairs s2 win (c :: rest) i used =
      (c, j) :: jaroPairs s2 win rest (i + 1) (used.set j true) := by
  simp [jaroPairs, hfind]

theorem jaroPairs_cons_none {s2 : List Char} {win : Nat} {c : Char}
    {rest : List Char} {i : Nat} {used : List Bool}
    (hfind : findMatchIdx c s2 used (i - win)
      (min (i + win) (s2.length - 1) + 1 - (i - win)) = none) :
    jaroPairs s2 win (c :: rest) i used =
      jaroPairs s2 win rest (i + 1) used := by
  simp [jaroPairs, hfind]

theorem jaroPairs_snd_spec (s2 : List Char) (win : Nat) :
    ∀ (s1 : List Char) (i : Nat) (used : List Bool),
      ((jaroPairs s2 win s1 i used).map Prod.snd).Nodup ∧
      ∀ j ∈ (jaroPairs s2 win s1 i used).map Prod.snd,
        used.getD j true = false := by
  intro s1
  induction s1 with
  | nil => intro i used; exact ⟨List.nodup_nil, by simp [jaroPairs]⟩
  | cons c rest ih =>
    intro i used
    cases hfind : findMatchIdx c s2 used (i - win)
        (min (i + win) (s2.length - 1) + 1 - (i - win)) with
    | none =>
      rw [jaroPairs_cons_none hfind]
      exact ih (i + 1) used
    | some j =>
      have hj : used.getD j true = false := findMatchIdx_some_unused hfind
      have hjlt : j < used.length := by
        by_contra hge
        rw [List.getD_eq_default _ _ (le_of_not_lt hge)] at hj
        exact Bool.noConfusion hj
      obtain ⟨ihn, ihm⟩ := ih (i + 1) (used.set j true)
      rw [jaroPairs_cons_some hfind]
      have hnotmem : j ∉ (jaroPairs s2 win rest (i + 1)
          (used.set j true)).map Prod.snd := by
        intro hmem
        have := ihm j hmem
        rw [getD_set_true hjlt] at this
        exact Bool.noConfusion this
      constructor
      · rw [List.map_cons]
        exact List.nodup_cons.mpr ⟨hnotmem, ihn⟩
      · intro j' hj'
        rw [List.map_cons, List.mem_cons] at hj'
        rcases hj' with hj' | hj'
        · exact hj' ▸ hj
        · have hne : j ≠ j' := fun he => hnotmem (he ▸ hj')
          have := ihm j' hj'
          rwa [getD_set_other hne] at this

theorem jaroPairs_length_le (s2 : List Char) (win : Nat) :
    ∀ (s1 : List Char) (i : Nat) (used : List Bool),
      (jaroPairs s2 win s1 i used).length ≤ s1.length := by
  intro s1
  induction s1 with
  | nil => intro i used; simp [jaroPairs]
  | cons c rest ih =>
    intro i used
    cases hfind : findMatchIdx c s2 used (i - win)
        (min (i + win) (s2.length - 1) + 1 - (i - win)) with
    | none =>
      rw [jaroPairs_cons_none hfind, List.length_cons]
      exact le_trans (ih (i + 1) used) (Nat.le_succ _)
    | some j =>
      rw [jaroPairs_cons_some hfind, List.length_cons, List.length_cons]
      exact Nat.succ_le_succ (ih (i + 1) (used.set j true))

theorem nodup_lt_length_le {l : List Nat} {n : Nat} (hn : l.Nodup)
    (hb : ∀ j ∈ l, j < n) : l.length ≤ n := by
  have h1 : l.toFinset.card = l.length := List.toFinset_card_of_nodup hn
  have h2 : l.toFinset ⊆ Finset.range n := by
    intro x hx
    rw [List.mem_toFinset] at hx
    rw [Finset.mem_range]
    exact hb x hx
  calc l.length = l.toFinset.card := h1.symm
    _ ≤ (Finset.range n).card := Finset.card_le_card h2
    _ = n := Finset.card_range n

theorem jaroRun_length_le_left (s1 s2 : List Char) :
    (jaroRun s1 s2).length ≤ s1.length :=
  jaroPairs_length_le s2 _ s1 0 _

theorem jaroRun_length_le_right (s1 s2 : List Char) :
    (jaroRun s1 s2).length ≤ s2.length := by
  obtain ⟨hn, hm⟩ := jaroPairs_snd_spec s2 (max s1.length s2.length / 2 - 1)
    s1 0 (List.replicate s2.length false)
  have hb : ∀ j ∈ (jaroRun s1 s2).map Prod.snd, j < s2.length := by
    intro j hj
    have hfalse := hm j hj
    by_contra hge
    rw [List.getD_eq_default _ _
      (by rw [List.length_replicate]; omega)] at hfalse
    exact Bool.noConfusion hfalse
  have := nodup_lt_length_le hn hb
  rwa [List.length_map] at this

theorem jaroCounts_snd_le_fst (s1 s2 : List Char) :
    (jaroCounts s1 s2).2 ≤ (jaroCounts s1 s2).1 := by
  show countMismatches _ _ ≤ (jaroRun s1 s2).length
  unfold countMismatches
  calc List.countP _ _ ≤ (((jaroRun s1 s2).map Prod.fst).zip
        (((jaroMatchedIdx (jaroRun s1 s2))).map
          (fun j => s2.getD j ' '))).length := List.countP_le_length _
    _ = min ((jaroRun s1 s2).map Prod.fst).length
        ((((jaroMatchedIdx (jaroRun s1 s2))).map
          (fun j => s2.getD j ' ')).length) := List.length_zip _ _
    _ ≤ ((jaroRun s1 s2).map Prod.fst).length := min_le_left _ _
    _ = (jaroRun s1 s2).length := List.length_map _ _

theorem mkRat_jw_formula (m t' l n1 n2 : Nat) (hm : m ≠ 0) (h1 : m ≤ n1)
    (h2 : m ≤ n2) (ht : t' ≤ m) :
    mkRat (Int.ofNat (10 * (2 * m * m * n2 + 2 * m * m * n1
                + (2 * m - t') * n1 * n2)
             + l * (6 * m * n1 * n2
                - (2 * m * m * n2 + 2 * m * m * n1 + (2 * m - t') * n1 * n2))))
          (10 * (6 * m * n1 * n2))
      = ((m : ℚ) / n1 + (m : ℚ) / n2 + ((m : ℚ) - (t' : ℚ) / 2) / m) / 3
        + (l : ℚ) / 10 *
          (1 - ((m : ℚ) / n1 + (m : ℚ) / n2
                + ((m : ℚ) - (t' : ℚ) / 2) / m) / 3) := by
  have hn1 : n1 ≠ 0 := by omega
  have hn2 : n2 ≠ 0 := by omega
  have h2m : t' ≤ 2 * m := by omega
  have hND : 2 * m * m * n2 + 2 * m * m * n1 + (2 * m - t') * n1 * n2
      ≤ 6 * m * n1 * n2 := by
    have e2 : 2 * m * m * n2 ≤ 2 * m * n1 * n2 := by
      have := Nat.mul_le_mul_left (2 * m) (Nat.mul_le_mul_right n2 h1)
      calc 2 * m * m * n2 = 2 * m * (m * n2) := by ring
        _ ≤ 2 * m * (n1 * n2) := this
        _ = 2 * m * n1 * n2 := by ring
    have e3 : 2 * m * m * n1 ≤ 2 * m * n1 * n2 := by
      have := Nat.mul_le_mul_left (2 * m * n1) h2
      calc 2 * m * m * n1 = 2 * m * n1 * m := by ring
        _ ≤ 2 * m * n1 * n2 := this
    have e4 : (2 * m - t') * n1 * n2 ≤ 2 * m * n1 * n2 := by
      have : 2 * m - t' ≤ 2 * m := Nat.sub_le _ _
      exact Nat.mul_le_mul_right n2 (Nat.mul_le_mul_right n1 this)
    calc 2 * m * m * n2 + 2 * m * m * n1 + (2 * m - t') * n1 * n2
        ≤ 2 * m * n1 * n2 + 2 * m * n1 * n2 + 2 * m * n1 * n2 :=
          Nat.add_le_add (Nat.add_le_add e2 e3) e4
      _ = 6 * m * n1 * n2 := by ring
  have hm' : (m : ℚ) ≠ 0 := Nat.cast_ne_zero.mpr hm
  have hn1' : (n1 : ℚ) ≠ 0 := Nat.cast_ne_zero.mpr hn1
  have hn2' : (n2 : ℚ) ≠ 0 := Nat.cast_ne_zero.mpr hn2
  rw [Rat.mkRat_eq_div]
  push_cast [Nat.cast_sub hND, Nat.cast_sub h2m]
  field_simp
  ring

theorem jaroWinkler_eq_canonical (s1 s2 : List Char) :
    jaroWinkler s1 s2 = jaroWinklerCanonical s1 s2 := by
  unfold jaroWinkler jaroWinklerCanonical
  by_cases hempty : (s1.isEmpty && s2.isEmpty) = true
  · rw [if_pos hempty, if_pos hempty]
  · rw [if_neg hempty, if_neg hempty]
    by_cases hm : (jaroCounts s1 s2).1 = 0
    · rw [if_pos hm, if_pos hm]
    · rw [if_neg hm, if_neg hm]
      have h1 : (jaroCounts s1 s2).1 ≤ s1.length := jaroRun_length_le_left s1 s2
      have h2 : (jaroCounts s1 s2).1 ≤ s2.length := jaroRun_length_le_right s1 s2
      have ht : (jaroCounts s1 s2).2 ≤ (jaroCounts s1 s2).1 :=
        jaroCounts_snd_le_fst s1 s2
      exact mkRat_jw_formula (jaroCounts s1 s2).1 (jaroCounts s1 s2).2
        (min (commonPrefixLen s1 s2) 4) s1.length s2.length hm h1 h2 ht

theorem mem_rank_filter_map {entries : List (String × ThesaurusEntry)}
    {f : String × ThesaurusEntry → Bool}
    {g : String × ThesaurusEntry → AutocompleteResult}
    {r : AutocompleteResult} :
    r ∈ rankResults ((entries.filter f).map g) ↔
      ∃ t e, (t, e) ∈ entries ∧ f (t, e) = true ∧ r = g (t, e) := by
  rw [mem_rankResults, List.mem_map]
  constructor
  · rintro ⟨⟨t, e⟩, hte, hr⟩
    rw [List.mem_filter] at hte
    exact ⟨t, e, hte.1, hte.2, hr.symm⟩
  · rintro ⟨t, e, hte, hf, hr⟩
    exact ⟨(t, e), List.mem_filter.mpr ⟨hte, hf⟩, hr.symm⟩

theorem le_qmax_left (a b : ℚ) : a ≤ qmax a b := by
  unfold qmax
  split
  · assumption
  · exact le_refl a

theorem le_qmax_right (a b : ℚ) : b ≤ qmax a b := by
  unfold qmax
  split
  · exact le_refl b
  · exact le_of_not_le (by assumption)

theorem qmax_cases (a b : ℚ) : qmax a b = a ∨ qmax a b = b := by
  unfold qmax
  split
  · exact Or.inr rfl
  · exact Or.inl rfl

theorem le_foldl_qmax (f : List Char → ℚ) (l : List (List Char)) (init : ℚ) :
    init ≤ l.foldl (fun acc k => qmax acc (f k)) init := by
  induction l generalizing init with
  | nil => exact le_refl _
  | cons k ks ih => exact le_trans (le_qmax_left init (f k)) (ih _)

theorem foldl_qmax_le_of_mem (f : List Char → ℚ) (l : List (List Char))
    (init : ℚ) {k : List Char} (hk : k ∈ l) :
    f k ≤ l.foldl (fun acc k' => qmax acc (f k')) init := by
  induction l generalizing init with
  | nil => cases hk
  | cons k' ks ih =>
    rw [List.mem_cons] at hk
    rcases hk with rfl | hk
    · exact le_trans (le_qmax_right init (f k)) (le_foldl_qmax f ks _)
    · exact ih _ hk

theorem foldl_qmax_attained (f : List Char → ℚ) (l : List (List Char))
    (init : ℚ) :
    l.foldl (fun acc k => qmax acc (f k)) init = init ∨
      ∃ k ∈ l, l.foldl (fun acc k => qmax acc (f k)) init = f k := by
  induction l generalizing init with
  | nil => exact Or.inl rfl
  | cons k' ks ih =>
    rcases ih (qmax init (f k')) with h | ⟨k, hk, h⟩
    · rcases qmax_cases init (f k') with hq | hq
      · exact Or.inl (by rw [List.foldl_cons, h, hq])
      · exact Or.inr ⟨k', List.mem_cons_self _ _, by rw [List.foldl_cons, h, hq]⟩
    · exact Or.inr ⟨k, List.mem_cons_of_mem _ hk, by rw [List.foldl_cons, h]⟩

theorem fuzzyScore_ge_key (cs : Bool) (q : List Char) (t : String)
    {k : List Char} (hk : k ∈ indexKeys cs t) :
    jaroWinkler q k ≤ fuzzyScore cs q t := by
  have hks : indexKeys cs t =
      foldCase cs t.data :: splitWords (foldCase cs t.data) := rfl
  rw [hks, List.mem_cons] at hk
  show jaroWinkler q k ≤ (splitWords (foldCase cs t.data)).foldl
    (fun acc k' => qmax acc (jaroWinkler q k')) (jaroWinkler q (foldCase cs t.data))
  rcases hk with rfl | hk
  · exact le_foldl_qmax _ _ _
  · exact foldl_qmax_le_of_mem _ _ _ hk

theorem fuzzyScore_attained (cs : Bool) (q : List Char) (t : String) :
    ∃ k ∈ indexKeys cs t, fuzzyScore cs q t = jaroWinkler q k := by
  have hbody : fuzzyScore cs q t = (splitWords (foldCase cs t.data)).foldl
      (fun acc k' => qmax acc (jaroWinkler q k'))
      (jaroWinkler q (foldCase cs t.data)) := rfl
  rcases foldl_qmax_attained (jaroWinkler q) (splitWords (foldCase cs t.data))
      (jaroWinkler q (foldCase cs t.data)) with h | ⟨k, hk, h⟩
  · exact ⟨foldCase cs t.data, List.mem_cons_self _ _, by rw [hbody, h]⟩
  · exact ⟨k, List.mem_cons_of_mem _ hk, by rw [hbody, h]⟩

/-- C4 counterexample: `fuzzy_search` does not score every *term* against
the query.  Over the one-entry thesaurus {"machine learning"}, the query
"learning" at threshold 0.99 returns the entry (its word key "learning"
scores 1), although the canonical Jaro-Winkler similarity between the
query and the folded term "machine learning" is below 0.99 — so the
claimed result set (entries whose term scores ≥ threshold) would be
empty. -/
theorem C4_counterexample_term_level_scoring :
    ((build_index mlOnlyThesaurus false).fuzzy_search "learning"
        (mkRat 99 100) none).length = 1 ∧
    jaroWinkler (foldChars "learning".data) (foldChars "machine learning".data)
      < mkRat 99 100 := by
  constructor
  · decide
  · decide

/-- C4 (amended): for every query, threshold and `max_results`,
`fuzzy_search` scores every indexed key — the case-folded (unless
`case_sensitive`) term and each of its space-separated words — against the
likewise folded query by Jaro-Winkler similarity computed by the canonical
definition (Jaro similarity from matching-character and transposition
counts within a window of `max(|s1|,|s2|)/2 - 1`, plus a prefix bonus
`0.1 * l * (1 - jaro)` with `l` the common-prefix length capped at 4);
an entry's score is the best of its key scores; exactly the entries with
score ≥ threshold are kept, ordered descending by score with a
lexicographic tie-break, and truncated to `max_results`. -/
theorem C4_fuzzy_search_characterization (idx : AutocompleteIndex)
    (query : String) (θ : ℚ) (k : Nat) :
    (idx.fuzzy_search query θ (some k) =
      (idx.fuzzy_search query θ none).take k) ∧
    List.Sorted resultLe (idx.fuzzy_search query θ none) ∧
    (∀ r, r ∈ idx.fuzzy_search query θ none ↔
      ∃ t e, (t, e) ∈ idx.entries ∧
        θ ≤ fuzzyScore idx.case_sensitive
              (foldCase idx.case_sensitive query.data) t ∧
        r = mkFuzzyResult idx.case_sensitive
              (foldCase idx.case_sensitive query.data) t e) ∧
    (∀ t : String, ∀ kk ∈ indexKeys idx.case_sensitive t,
      jaroWinkler (foldCase idx.case_sensitive query.data) kk ≤
        fuzzyScore idx.case_sensitive
          (foldCase idx.case_sensitive query.data) t) ∧
    (∀ t : String, ∃ kk ∈ indexKeys idx.case_sensitive t,
      fuzzyScore idx.case_sensitive (foldCase idx.case_sensitive query.data) t
        = jaroWinkler (foldCase idx.case_sensitive query.data) kk) ∧
    (∀ s1 s2 : List Char, jaroWinkler s1 s2 = jaroWinklerCanonical s1 s2) := by
  refine ⟨rfl, rankResults_sorted _, ?_,
    fun t kk hk => fuzzyScore_ge_key _ _ _ hk,
    fun t => fuzzyScore_attained _ _ _,
    jaroWinkler_eq_canonical⟩
  intro r
  show r ∈ rankResults _ ↔ _
  rw [mem_rank_filter_map]
  simp only [decide_eq_true_eq]

/-- Witness for C4: the characterization instantiated on the one-entry
thesaurus at query "learning", threshold 0.99. -/
theorem C4_fuzzy_search_characterization_witness :
    ((build_index mlOnlyThesaurus false).fuzzy_search "learning"
        (mkRat 99 100) (some 1) =
      ((build_index mlOnlyThesaurus false).fuzzy_search "learning"
        (mkRat 99 100) none).take 1) ∧
    mkFuzzyResult false (foldChars "learning".data) "machine learning"
        ⟨1, "machine learning", some "https://example.com/ml"⟩ ∈
      (build_index mlOnlyThesaurus false).fuzzy_search "learning"
        (mkRat 99 100) none :=
  ⟨(C4_fuzzy_search_characterization (build_index mlOnlyThesaurus false)
      "learning" (mkRat 99 100) 1).1,
   ((C4_fuzzy_search_characterization (build_index mlOnlyThesaurus false)
      "learning" (mkRat 99 100) 1).2.2.1 _).mpr
     ⟨"machine learning",
      ⟨1, "machine learning", some "https://example.com/ml"⟩,
      by decide, by decide, by decide⟩⟩

/-- C5: against any thesaurus containing the term "machine learning",
`fuzzy_search_levenshtein "macine" 2` is non-empty and contains that term
(the word key "machine" is at distance 1). -/
theorem C5_levenshtein_macine (th : Thesaurus) (e : ThesaurusEntry)
    (h : ("machine learning", e) ∈ th.data) :
    (build_index th false).fuzzy_search_levenshtein "macine" 2 none ≠ [] ∧
    ∃ r ∈ (build_index th false).fuzzy_search_levenshtein "macine" 2 none,
      r.term = "machine learning" := by
  have hmem : mkLevResult false (foldCase false "macine".data)
      "machine learning" e ∈
      (build_index th false).fuzzy_search_levenshtein "macine" 2 none := by
    show _ ∈ rankResults _
    rw [mem_rank_filter_map]
    refine ⟨"machine learning", e, h, ?_, rfl⟩
    show decide (levScore false (foldCase false "macine".data)
      "machine learning" ≤ 2) = true
    decide
  constructor
  · intro hnil
    rw [hnil] at hmem
    cases hmem
  · exact ⟨_, hmem, rfl⟩

/-- Witness for C5: instantiated on the three-entry learning thesaurus. -/
theorem C5_levenshtein_macine_witness :
    (build_index learnThesaurus false).fuzzy_search_levenshtein
      "macine" 2 none ≠ [] ∧
    ∃ r ∈ (build_index learnThesaurus false).fuzzy_search_levenshtein
      "macine" 2 none, r.term = "machine learning" :=
  C5_levenshtein_macine learnThesaurus
    ⟨1, "machine learning", some "https://example.com/ml"⟩ (by decide)

theorem length_filter_mono {α : Type} (l : List α) {p q : α → Bool}
    (h : ∀ a, p a = true → q a = true) :
    (l.filter p).length ≤ (l.filter q).length :=
  (List.monotone_filter_right l h).length_le

/-- C6: monotonicity of the two fuzzy matchers (without truncation): a
lower Jaro-Winkler threshold never returns fewer results, and a larger
Levenshtein distance bound never returns fewer results. -/
theorem C6_fuzzy_monotonicity (idx : AutocompleteIndex) (query : String)
    (θlo θhi : ℚ) (hθ : θlo ≤ θhi) (dlo dhi : Nat) (hd : dlo ≤ dhi) :
    (idx.fuzzy_search query θhi none).length ≤
      (idx.fuzzy_search query θlo none).length ∧
    (idx.fuzzy_search_levenshtein query dlo none).length ≤
      (idx.fuzzy_search_levenshtein query dhi none).length := by
  constructor
  · show (rankResults _).length ≤ (rankResults _).length
    rw [length_rankResults, length_rankResults, List.length_map,
      List.length_map]
    refine length_filter_mono _ (fun a ha => ?_)
    rw [decide_eq_true_eq] at ha ⊢
    exact le_trans hθ ha
  · show (rankResults _).length ≤ (rankResults _).length
    rw [length_rankResults, length_rankResults, List.length_map,
      List.length_map]
    refine length_filter_mono _ (fun a ha => ?_)
    rw [decide_eq_true_eq] at ha ⊢
    exact le_trans ha hd

/-- Witness for C6: thresholds 0.5 ≤ 0.95 and distances 1 ≤ 3 on the
learning thesaurus with query "machin". -/
theorem C6_fuzzy_monotonicity_witness :
    ((build_index learnThesaurus false).fuzzy_search "machin"
        (mkRat 95 100) none).length ≤
      ((build_index learnThesaurus false).fuzzy_search "machin"
        (mkRat 1 2) none).length ∧
    ((build_index learnThesaurus false).fuzzy_search_levenshtein "machin"
        1 none).length ≤
      ((build_index learnThesaurus false).fuzzy_search_levenshtein "machin"
        3 none).length :=
  C6_fuzzy_monotonicity (build_index learnThesaurus false) "machin"
    (mkRat 1 2) (mkRat 95 100) (by decide) 1 3 (by decide)

example : (find_all_matches "MACHINE LEARNING and Machine Learning are the same."
    matcherThesaurus false).map (fun m => m.term) =
    ["machine learning", "machine learning"] := by decide

example : replace_with_links "I study machine learning." matcherThesaurus
    "markdown" =
    Except.ok "I study [machine learning](https://example.com/ml)." := rfl

example : replace_with_links "I study machine learning." matcherThesaurus
    "invalid" = Except.error "Invalid link type: invalid" := rfl

example : extract_paragraphs
    "First paragraph.\n\nThis is about machine learning and more.\n\nThird."
    matcherThesaurus =
    [("machine learning", "machine learning and more.")] := by decide

theorem foldEqAt_length_le {t l : List Char} (h : foldEqAt t l = true) :
    t.length ≤ l.length := by
  induction t generalizing l with
  | nil => simp
  | cons c ts ih =>
    cases l with
    | nil => simp [foldEqAt] at h
    | cons c' ls =>
      simp only [foldEqAt, Bool.and_eq_true] at h
      simpa [List.length_cons] using Nat.succ_le_succ (ih h.2)

theorem foldEqAt_append {t s v : List Char} (h : foldEqAt t s = true) :
    foldEqAt t (s ++ v) = true := by
  induction t generalizing s with
  | nil => rfl
  | cons c ts ih =>
    cases s with
    | nil => simp [foldEqAt] at h
    | cons c' ss =>
      simp only [foldEqAt, Bool.and_eq_true] at h
      simp only [List.cons_append, foldEqAt, Bool.and_eq_true]
      exact ⟨h.1, ih h.2⟩

theorem pickLongest_eq_none {l : List (String × ThesaurusEntry)} :
    pickLongest l = none ↔ l = [] := by
  cases l with
  | nil => simp [pickLongest]
  | cons p rest =>
    simp only [pickLongest]
    cases hr : pickLongest rest with
    | none => simp
    | some q =>
      show (if q.1.data.length > p.1.data.length then some q else some p)
        = none ↔ p :: rest = []
      by_cases hq : q.1.data.length > p.1.data.length
      · rw [if_pos hq]; simp
      · rw [if_neg hq]; simp

theorem pickLongest_mem {l : List (String × ThesaurusEntry)}
    {x : String × ThesaurusEntry} (h : pickLongest l = some x) : x ∈ l := by
  induction l with
  | nil => simp [pickLongest] at h
  | cons p rest ih =>
    cases hr : pickLongest rest with
    | none =>
      simp only [pickLongest, hr] at h
      injection h with h'
      rw [← h']
      exact List.mem_cons_self _ _
    | some q =>
      simp only [pickLongest, hr] at h
      by_cases hq : q.1.data.length > p.1.data.length
      · rw [if_pos hq] at h
        injection h with h'
        subst h'
        exact List.mem_cons_of_mem _ (ih hr)
      · rw [if_neg hq] at h
        injection h with h'
        rw [← h']
        exact List.mem_cons_self _ _

theorem pickLongest_maximal {l : List (String × ThesaurusEntry)} :
    ∀ {x : String × ThesaurusEntry}, pickLongest l = some x →
      ∀ y ∈ l, y.1.data.length ≤ x.1.data.length := by
  induction l with
  | nil => intro x h; simp [pickLongest] at h
  | cons p rest ih =>
    intro x h y hy
    rw [List.mem_cons] at hy
    cases hr : pickLongest rest with
    | none =>
      simp only [pickLongest, hr] at h
      injection h with h'
      subst h'
      rcases hy with rfl | hy
      · exact le_refl _
      · rw [pickLongest_eq_none] at hr
        rw [hr] at hy
        cases hy
    | some q =>
      simp only [pickLongest, hr] at h
      by_cases hq : q.1.data.length > p.1.data.length
      · rw [if_pos hq] at h
        injection h with h'
        subst h'
        rcases hy with rfl | hy
        · exact le_of_lt hq
        · exact ih hr y hy
      · rw [if_neg hq] at h
        injection h with h'
        subst h'
        rcases hy with rfl | hy
        · exact le_refl _
        · exact le_trans (ih hr y hy) (le_of_not_lt hq)

theorem bestMatchAt_some {pats : List (String × ThesaurusEntry)}
    {pending : List Char} {t : String} {e : ThesaurusEntry}
    (h : bestMatchAt pats pending = some (t, e)) :
    (t, e) ∈ pats ∧ t.data ≠ [] ∧ foldEqAt t.data pending = true := by
  have hm := pickLongest_mem h
  rw [List.mem_filter] at hm
  obtain ⟨hmem, hcond⟩ := hm
  simp only [Bool.and_eq_true, Bool.not_eq_true'] at hcond
  refine ⟨hmem, ?_, hcond.2⟩
  intro hnil
  rw [hnil] at hcond
  simp at hcond

theorem bestMatchAt_longest {pats : List (String × ThesaurusEntry)}
    {pending : List Char} {t : String} {e : ThesaurusEntry}
    (h : bestMatchAt pats pending = some (t, e)) :
    ∀ t' e', (t', e') ∈ pats → t'.data ≠ [] →
      foldEqAt t'.data pending = true → t'.data.length ≤ t.data.length := by
  intro t' e' hmem hne hfold
  have hcond : (!(t', e').1.data.isEmpty && foldEqAt (t', e').1.data pending)
      = true := by
    simp only [Bool.and_eq_true, Bool.not_eq_true']
    exact ⟨by simpa [List.isEmpty_iff] using hne, hfold⟩
  have hfmem : (t', e') ∈ pats.filter
      (fun p => !p.1.data.isEmpty && foldEqAt p.1.data pending) :=
    List.mem_filter.mpr ⟨hmem, hcond⟩
  exact pickLongest_maximal h (t', e') hfmem

theorem bestMatchAt_none {pats : List (String × ThesaurusEntry)}
    {pending : List Char} (h : bestMatchAt pats pending = none) :
    ∀ t' e', (t', e') ∈ pats → t'.data ≠ [] →
      foldEqAt t'.data pending = false := by
  intro t' e' hmem hne
  by_contra hfold
  rw [Bool.not_eq_false] at hfold
  have hcond : (!(t', e').1.data.isEmpty && foldEqAt (t', e').1.data pending)
      = true := by
    simp only [Bool.and_eq_true, Bool.not_eq_true']
    exact ⟨by simpa [List.isEmpty_iff] using hne, hfold⟩
  have hfmem : (t', e') ∈ pats.filter
      (fun p => !p.1.data.isEmpty && foldEqAt p.1.data pending) :=
    List.mem_filter.mpr ⟨hmem, hcond⟩
  unfold bestMatchAt at h
  rw [pickLongest_eq_none] at h
  rw [h] at hfmem
  cases hfmem

theorem occursB_false_drop {t l : List Char} (h : occursB t l = false) :
    ∀ i, foldEqAt t (l.drop i) = false := by
  induction l with
  | nil => intro i; rw [List.drop_nil]; exact h
  | cons c rest ih =>
    rw [occursB, Bool.or_eq_false_iff] at h
    intro i
    cases i with
    | zero => exact h.1
    | succ i => rw [List.drop_succ_cons]; exact ih h.2 i

theorem occursB_of_foldEqAt_drop {t l : List Char} {i : Nat}
    (h : foldEqAt t (l.drop i) = true) : occursB t l = true := by
  induction l generalizing i with
  | nil => rw [List.drop_nil] at h; exact h
  | cons c rest ih =>
    cases i with
    | zero => rw [List.drop_zero] at h; rw [occursB, h, Bool.true_or]
    | succ i =>
      rw [List.drop_succ_cons] at h
      rw [occursB, ih h, Bool.or_true]

theorem occursB_of_within {t p l : List Char} (hne : t ≠ [])
    (hinf : p.IsInfix l) (h : occursB t p = true) : occursB t l = true := by
  obtain ⟨u, v, huv⟩ := hinf
  obtain ⟨i, hi⟩ : ∃ i, foldEqAt t (p.drop i) = true := by
    clear huv
    induction p with
    | nil => exact ⟨0, h⟩
    | cons c rest ih =>
      rw [occursB, Bool.or_eq_true] at h
      rcases h with h | h
      · exact ⟨0, h⟩
      · obtain ⟨i, hi⟩ := ih h
        exact ⟨i + 1, by rwa [List.drop_succ_cons]⟩
  have hile : i ≤ p.length := by
    have h1 := foldEqAt_length_le hi
    rw [List.length_drop] at h1
    have h2 : 0 < t.length := by
      cases t with
      | nil => exact absurd rfl hne
      | cons a b => simp
    omega
  have hdrop : l.drop (u.length + i) = p.drop i ++ v := by
    rw [← huv, List.append_assoc]
    calc (u ++ (p ++ v)).drop (u.length + i)
        = ((u ++ (p ++ v)).drop u.length).drop i := by
          rw [List.drop_drop]
      _ = (p ++ v).drop i := by rw [List.drop_left]
      _ = p.drop i ++ v := List.drop_append_of_le_length hile
  have hfe : foldEqAt t (l.drop (u.length + i)) = true := by
    rw [hdrop]
    exact foldEqAt_append hi
  exact occursB_of_foldEqAt_drop hfe

theorem splitParasAux_pieces :
    ∀ (l acc : List Char), ∀ p ∈ splitParasAux l acc,
      p.IsInfix (acc.reverse ++ l) := by
  intro l acc
  induction l, acc using splitParasAux.induct with
  | case1 acc =>
    intro p hp
    rw [splitParasAux, List.mem_singleton] at hp
    rw [hp]
    exact (List.prefix_append _ _).isInfix
  | case2 c acc =>
    intro p hp
    rw [splitParasAux, List.mem_singleton] at hp
    rw [hp, List.reverse_cons]
  | case3 c1 c2 rest acc hnl ih =>
    intro p hp
    rw [splitParasAux, if_pos hnl, List.mem_cons] at hp
    rcases hp with rfl | hp
    · exact (List.prefix_append _ _).isInfix
    · have h1 := ih p hp
      rw [List.reverse_nil, List.nil_append] at h1
      refine h1.trans ⟨acc.reverse ++ [c1, c2], [], ?_⟩
      simp
  | case4 c1 c2 rest acc hnl ih =>
    intro p hp
    rw [splitParasAux, if_neg hnl] at hp
    have h1 := ih p hp
    rw [List.reverse_cons, List.append_assoc] at h1
    exact h1

theorem splitParas_pieces {l p : List Char} (hp : p ∈ splitParas l) :
    p.IsInfix l := by
  have := splitParasAux_pieces l [] p hp
  rwa [List.reverse_nil, List.nil_append] at this

theorem drop_cons_succ {text : List Char} {pos : Nat} {c : Char}
    {rest : List Char} (hpend : c :: rest = text.drop pos) :
    rest = text.drop (pos + 1) := by
  have h1 : List.drop 1 (text.drop pos) = text.drop (pos + 1) :=
    List.drop_drop 1 pos text
  rw [← h1, ← hpend]
  rfl

theorem drop_cons_add {text : List Char} {pos : Nat} {c : Char}
    {rest : List Char} (hpend : c :: rest = text.drop pos) (k : Nat) :
    (c :: rest).drop k = text.drop (pos + k) := by
  rw [hpend, List.drop_drop]

theorem scanFuel_mem_spec (pats : List (String × ThesaurusEntry))
    (text : List Char) :
    ∀ (fuel : Nat) (pending : List Char) (pos : Nat),
      pending = text.drop pos →
      ∀ m ∈ scanFuel pats fuel pending pos,
        pos ≤ m.start ∧ m.stop = m.start + m.term.data.length ∧
        m.term.data ≠ [] ∧ (m.term, m.entry) ∈ pats ∧
        foldEqAt m.term.data (text.drop m.start) = true ∧
        m.stop ≤ text.length := by
  intro fuel
  induction fuel with
  | zero => intro pending pos hpend m hm; simp [scanFuel] at hm
  | succ fuel ih =>
    intro pending pos hpend m hm
    cases pending with
    | nil => simp [scanFuel] at hm
    | cons c rest =>
      cases hbest : bestMatchAt pats (c :: rest) with
      | some te =>
        obtain ⟨t, e⟩ := te
        obtain ⟨hp, hne, hfold⟩ := bestMatchAt_some hbest
        simp only [scanFuel, hbest, List.mem_cons] at hm
        have hposlen : pos ≤ text.length := by
          by_contra hgt
          rw [List.drop_eq_nil_of_le (by omega)] at hpend
          cases hpend
        have hlenpend : (c :: rest).length = text.length - pos := by
          rw [hpend, List.length_drop]
        have hdrop : (c :: rest).drop t.data.length =
            text.drop (pos + t.data.length) := by
          rw [hpend, List.drop_drop]
        rcases hm with rfl | hm
        · refine ⟨le_refl _, rfl, hne, hp, ?_, ?_⟩
          · show foldEqAt t.data (text.drop pos) = true
            rw [← hpend]
            exact hfold
          · show pos + t.data.length ≤ text.length
            have hlen := foldEqAt_length_le hfold
            simp only [List.length_cons] at hlen hlenpend
            omega
        · have hall := ih _ _ hdrop m hm
          exact ⟨le_trans (Nat.le_add_right _ _) hall.1, hall.2⟩
      | none =>
        simp only [scanFuel, hbest] at hm
        have hdrop1 : rest = text.drop (pos + 1) := drop_cons_succ hpend
        have hall := ih _ _ hdrop1 m hm
        exact ⟨le_trans (Nat.le_succ _) hall.1, hall.2⟩

theorem scanFuel_chain (pats : List (String × ThesaurusEntry))
    (text : List Char) :
    ∀ (fuel : Nat) (pending : List Char) (pos : Nat),
      pending = text.drop pos →
      List.Chain' (fun a b : ScanMatch => a.stop ≤ b.start)
        (scanFuel pats fuel pending pos) := by
  intro fuel
  induction fuel with
  | zero => intro pending pos hpend; simp [scanFuel]
  | succ fuel ih =>
    intro pending pos hpend
    cases pending with
    | nil => simp [scanFuel]
    | cons c rest =>
      cases hbest : bestMatchAt pats (c :: rest) with
      | some te =>
        obtain ⟨t, e⟩ := te
        have hdrop : (c :: rest).drop t.data.length =
            text.drop (pos + t.data.length) := by
          rw [hpend, List.drop_drop]
        simp only [scanFuel, hbest]
        rw [List.chain'_cons']
        constructor
        · intro b hb
          have hbmem := List.mem_of_mem_head? hb
          exact (scanFuel_mem_spec pats text fuel _ _ hdrop b hbmem).1
        · exact ih _ _ hdrop
      | none =>
        simp only [scanFuel, hbest]
        exact ih _ _ (drop_cons_succ hpend)

theorem scanFuel_longest (pats : List (String × ThesaurusEntry))
    (text : List Char) :
    ∀ (fuel : Nat) (pending : List Char) (pos : Nat),
      pending = text.drop pos →
      ∀ m ∈ scanFuel pats fuel pending pos, ∀ t' e', (t', e') ∈ pats →
        t'.data ≠ [] → foldEqAt t'.data (text.drop m.start) = true →
        t'.data.length ≤ m.term.data.length := by
  intro fuel
  induction fuel with
  | zero => intro pending pos hpend m hm; simp [scanFuel] at hm
  | succ fuel ih =>
    intro pending pos hpend m hm t' e' hmem hne hfold'
    cases pending with
    | nil => simp [scanFuel] at hm
    | cons c rest =>
      cases hbest : bestMatchAt pats (c :: rest) with
      | some te =>
        obtain ⟨t, e⟩ := te
        simp only [scanFuel, hbest, List.mem_cons] at hm
        have hdrop : (c :: rest).drop t.data.length =
            text.drop (pos + t.data.length) := by
          rw [hpend, List.drop_drop]
        rcases hm with rfl | hm
        · show t'.data.length ≤ t.data.length
          refine bestMatchAt_longest hbest t' e' hmem hne ?_
          rw [hpend]
          exact hfold'
        · exact ih _ _ hdrop m hm t' e' hmem hne hfold'
      | none =>
        simp only [scanFuel, hbest] at hm
        exact ih _ _ (drop_cons_succ hpend) m hm t' e' hmem hne hfold'

theorem foldEqAt_nil_of_ne {t : List Char} (hne : t ≠ []) :
    foldEqAt t [] = false := by
  cases t with
  | nil => exact absurd rfl hne
  | cons a b => rfl

theorem scanFuel_gap (pats : List (String × ThesaurusEntry))
    (text : List Char) :
    ∀ (fuel : Nat) (pending : List Char) (pos : Nat),
      pending = text.drop pos → pending.length ≤ fuel →
      ∀ p, pos ≤ p →
      (∀ m ∈ scanFuel pats fuel pending pos, p < m.start ∨ m.stop ≤ p) →
      ∀ t' e', (t', e') ∈ pats → t'.data ≠ [] →
        foldEqAt t'.data (text.drop p) = false := by
  intro fuel
  induction fuel with
  | zero =>
    intro pending pos hpend hfuel p hp hgap t' e' hmem hne
    have hpnil : pending = [] := List.length_eq_zero.mp (Nat.le_zero.mp hfuel)
    rw [hpnil] at hpend
    have hlen : text.length ≤ pos := by
      have := congrArg List.length hpend
      rw [List.length_drop] at this
      simp only [List.length_nil] at this
      omega
    rw [List.drop_eq_nil_of_le (by omega)]
    exact foldEqAt_nil_of_ne hne
  | succ fuel ih =>
    intro pending pos hpend hfuel p hp hgap t' e' hmem hne
    cases pending with
    | nil =>
      have hlen : text.length ≤ pos := by
        have := congrArg List.length hpend
        rw [List.length_drop] at this
        simp only [List.length_nil] at this
        omega
      rw [List.drop_eq_nil_of_le (by omega)]
      exact foldEqAt_nil_of_ne hne
    | cons c rest =>
      cases hbest : bestMatchAt pats (c :: rest) with
      | some te =>
        obtain ⟨t, e⟩ := te
        obtain ⟨hpmem, htne, hfold⟩ := bestMatchAt_some hbest
        have hk1 : 0 < t.data.length := List.length_pos.mpr htne
        have hdrop : (c :: rest).drop t.data.length =
            text.drop (pos + t.data.length) := by
          rw [hpend, List.drop_drop]
        have hfuel' : ((c :: rest).drop t.data.length).length ≤ fuel := by
          rw [List.length_drop]
          simp only [List.length_cons] at hfuel ⊢
          omega
        have hgap' : ∀ m ∈ scanFuel pats fuel ((c :: rest).drop t.data.length)
            (pos + t.data.length), p < m.start ∨ m.stop ≤ p := by
          intro m hm
          refine hgap m ?_
          simp only [scanFuel, hbest]
          exact List.mem_cons_of_mem _ hm
        have hm0 := hgap ⟨t, e, pos, pos + t.data.length⟩ (by
          simp only [scanFuel, hbest]
          exact List.mem_cons_self _ _)
        rcases hm0 with hlt | hstop
        · have hlt' : p < pos := hlt
          omega
        · have hstop' : pos + t.data.length ≤ p := hstop
          exact ih _ _ hdrop hfuel' p (by omega) hgap' t' e' hmem hne
      | none =>
        have hdrop1 : rest = text.drop (pos + 1) := drop_cons_succ hpend
        have hfuel' : rest.length ≤ fuel := by
          simp only [List.length_cons] at hfuel
          omega
        by_cases hpp : p = pos
        · subst hpp
          have hnone := bestMatchAt_none hbest t' e' hmem hne
          rw [← hpend]
          exact hnone
        · refine ih _ _ hdrop1 hfuel' p (by omega) ?_ t' e' hmem hne
          intro m hm
          refine hgap m ?_
          simp only [scanFuel, hbest]
          exact hm

theorem scanFuel_eq_nil (pats : List (String × ThesaurusEntry)) :
    ∀ (fuel : Nat) (pending : List Char) (pos : Nat),
      (∀ t' e', (t', e') ∈ pats → t'.data ≠ [] →
        ∀ i, foldEqAt t'.data (pending.drop i) = false) →
      scanFuel pats fuel pending pos = [] := by
  intro fuel
  induction fuel with
  | zero => intro pending pos h; rfl
  | succ fuel ih =>
    intro pending pos h
    cases pending with
    | nil => rfl
    | cons c rest =>
      cases hbest : bestMatchAt pats (c :: rest) with
      | some te =>
        obtain ⟨t, e⟩ := te
        obtain ⟨hpmem, hne, hfold⟩ := bestMatchAt_some hbest
        have hcontra := h t e hpmem hne 0
        rw [List.drop_zero, hfold] at hcontra
        exact Bool.noConfusion hcontra
      | none =>
        simp only [scanFuel, hbest]
        refine ih rest (pos + 1) ?_
        intro t' e' hm hn i
        have := h t' e' hm hn (i + 1)
        rwa [List.drop_succ_cons] at this

theorem splice_cons_of_ge (lt : String) (text : List Char)
    (ms : List ScanMatch) (pos : Nat) (c : Char)
    (hpos : text.drop pos = c :: text.drop (pos + 1))
    (hms : ∀ m ∈ ms, pos + 1 ≤ m.start) :
    spliceMatches lt text ms pos = c :: spliceMatches lt text ms (pos + 1) := by
  cases ms with
  | nil =>
    show text.drop pos = c :: text.drop (pos + 1)
    exact hpos
  | cons m rest =>
    have h1 : pos + 1 ≤ m.start := hms m (List.mem_cons_self _ _)
    have h2 : m.start - pos = (m.start - (pos + 1)) + 1 := by omega
    simp only [spliceMatches]
    rw [hpos, h2, List.take_succ_cons, List.cons_append, List.cons_append]

theorem replaceFuel_eq_splice (pats : List (String × ThesaurusEntry))
    (lt : String) (text : List Char) :
    ∀ (fuel : Nat) (pending : List Char) (pos : Nat),
      pending = text.drop pos → pending.length ≤ fuel →
      replaceFuel pats lt fuel pending =
        spliceMatches lt text (scanFuel pats fuel pending pos) pos := by
  intro fuel
  induction fuel with
  | zero =>
    intro pending pos hpend hfuel
    have hpnil : pending = [] := List.length_eq_zero.mp (Nat.le_zero.mp hfuel)
    subst hpnil
    show ([] : List Char) = text.drop pos
    exact hpend
  | succ fuel ih =>
    intro pending pos hpend hfuel
    cases pending with
    | nil =>
      show ([] : List Char) = text.drop pos
      exact hpend
    | cons c rest =>
      cases hbest : bestMatchAt pats (c :: rest) with
      | some te =>
        obtain ⟨t, e⟩ := te
        obtain ⟨hpmem, hne, hfold⟩ := bestMatchAt_some hbest
        have hk1 : 0 < t.data.length := List.length_pos.mpr hne
        have hdrop : (c :: rest).drop t.data.length =
            text.drop (pos + t.data.length) := by
          rw [hpend, List.drop_drop]
        have hfuel' : ((c :: rest).drop t.data.length).length ≤ fuel := by
          rw [List.length_drop]
          simp only [List.length_cons] at hfuel ⊢
          omega
        simp only [replaceFuel, scanFuel, hbest, spliceMatches,
          Nat.sub_self, List.take_zero, List.nil_append]
        rw [ih _ _ hdrop hfuel']
      | none =>
        have hdrop1 : rest = text.drop (pos + 1) := drop_cons_succ hpend
        have hfuel' : rest.length ≤ fuel := by
          simp only [List.length_cons] at hfuel
          omega
        simp only [replaceFuel, scanFuel, hbest]
        rw [ih _ _ hdrop1 hfuel']
        refine (splice_cons_of_ge lt text _ pos c ?_ ?_).symm
        · rw [← hpend, ← hdrop1]
        · intro m hm
          exact (scanFuel_mem_spec pats text fuel _ _ hdrop1 m hm).1

/-- C3: the scanner is case-insensitive, leftmost-longest and
non-overlapping.  For every thesaurus and text: consecutive matches are
non-overlapping and in left-to-right order; every match is a nonempty
thesaurus term matching case-insensitively at its reported span, which
lies inside the text; no longer thesaurus term matches at an emitted
match's start; at any position clear of all matches no thesaurus term
matches at all; and on the repository's concrete example a text with two
case-varied occurrences of "machine learning" yields exactly those two
matches. -/
theorem C3_scan_leftmost_longest (th : Thesaurus) (text : List Char) :
    (List.Chain' (fun a b : ScanMatch => a.stop ≤ b.start)
      (scanText th text)) ∧
    (∀ m ∈ scanText th text,
      m.stop = m.start + m.term.data.length ∧ m.term.data ≠ [] ∧
      (m.term, m.entry) ∈ th.data ∧
      foldEqAt m.term.data (text.drop m.start) = true ∧
      m.stop ≤ text.length) ∧
    (∀ m ∈ scanText th text, ∀ t' e', (t', e') ∈ th.data → t'.data ≠ [] →
      foldEqAt t'.data (text.drop m.start) = true →
      t'.data.length ≤ m.term.data.length) ∧
    (∀ p, (∀ m ∈ scanText th text, p < m.start ∨ m.stop ≤ p) →
      ∀ t' e', (t', e') ∈ th.data → t'.data ≠ [] →
        foldEqAt t'.data (text.drop p) = false) ∧
    ((find_all_matches "MACHINE LEARNING and Machine Learning are the same."
        matcherThesaurus false).map (fun m => m.term) =
      ["machine learning", "machine learning"]) := by
  have hpend : text = text.drop 0 := (List.drop_zero text).symm
  refine ⟨scanFuel_chain th.data text _ _ _ hpend, ?_, ?_, ?_, by decide⟩
  · intro m hm
    exact (scanFuel_mem_spec th.data text _ _ _ hpend m hm).2
  · intro m hm
    exact scanFuel_longest th.data text _ _ _ hpend m hm
  · intro p hgap
    exact scanFuel_gap th.data text _ _ _ hpend (le_refl _) p (Nat.zero_le _)
      hgap

/-- Witness for C3: the per-match specification instantiated on the first
match of the mixed-case example text. -/
theorem C3_scan_leftmost_longest_witness :
    (⟨"machine learning",
        ⟨1, "machine learning", some "https://example.com/ml"⟩, 0, 16⟩ :
      ScanMatch).stop =
        (⟨"machine learning",
            ⟨1, "machine learning", some "https://example.com/ml"⟩, 0, 16⟩ :
          ScanMatch).start + 16 ∧
    foldEqAt "machine learning".data
      (("MACHINE LEARNING and Machine Learning are the same.".data).drop 0)
      = true :=
  have h := (C3_scan_leftmost_longest matcherThesaurus
      "MACHINE LEARNING and Machine Learning are the same.".data).2.1
    ⟨"machine learning",
        ⟨1, "machine learning", some "https://example.com/ml"⟩, 0, 16⟩
    (by decide)
  ⟨h.1, h.2.2.2.1⟩

/-- C7: `replace_with_links` fails with `InvalidArgument` exactly when the
link type is not one of the four recognized values; otherwise its output
is the scanner's match list spliced back into the text — each matched span
replaced by the format chosen by the link type, every unmatched character
unchanged — so with zero matches the output equals the input exactly.  The
four formats are markdown `[term](url)`, html `<a href="url">term</a>`,
wiki `[[term]]` and plain `normalized_term`. -/
theorem C7_replace_with_links_spec (text : String) (th : Thesaurus)
    (lt : String) :
    (lt ∉ linkTypes ↔
      replace_with_links text th lt =
        Except.error ("Invalid link type: " ++ lt)) ∧
    (lt ∈ linkTypes →
      replace_with_links text th lt = Except.ok
        (String.mk (spliceMatches lt text.data (scanText th text.data) 0))) ∧
    (lt ∈ linkTypes → scanText th text.data = [] →
      replace_with_links text th lt = Except.ok text) ∧
    (∀ t e, formatLink "markdown" t e =
      "[" ++ t ++ "](" ++ e.url.getD "" ++ ")") ∧
    (∀ t e, formatLink "html" t e =
      "<a href=\"" ++ e.url.getD "" ++ "\">" ++ t ++ "</a>") ∧
    (∀ t e, formatLink "wiki" t e = "[[" ++ t ++ "]]") ∧
    (∀ t e, formatLink "plain" t e = e.nterm) := by
  have hok : lt ∈ linkTypes →
      replace_with_links text th lt = Except.ok
        (String.mk (spliceMatches lt text.data (scanText th text.data) 0)) := by
    intro hlt
    unfold replace_with_links
    rw [if_pos hlt]
    congr 1
    ext1
    exact replaceFuel_eq_splice th.data lt text.data _ _ _
      (List.drop_zero text.data).symm (le_refl _)
  refine ⟨?_, hok, ?_, fun t e => rfl, fun t e => rfl, fun t e => rfl,
    fun t e => rfl⟩
  · constructor
    · intro hlt
      unfold replace_with_links
      rw [if_neg hlt]
    · intro herr hlt
      rw [hok hlt] at herr
      cases herr
  · intro hlt hnil
    rw [hok hlt, hnil]
    show Except.ok (String.mk (text.data.drop 0)) = Except.ok text
    rw [List.drop_zero]

/-- Witness for C7: a text with no matches is returned unchanged under
"markdown", and an unrecognized link type is rejected. -/
theorem C7_replace_with_links_spec_witness :
    replace_with_links "no relevant terms here." matcherThesaurus "markdown"
      = Except.ok "no relevant terms here." ∧
    replace_with_links "no relevant terms here." matcherThesaurus "invalid"
      = Except.error ("Invalid link type: " ++ "invalid") :=
  ⟨(C7_replace_with_links_spec "no relevant terms here." matcherThesaurus
      "markdown").2.2.1 (by decide) (by decide),
   ((C7_replace_with_links_spec "no relevant terms here." matcherThesaurus
      "invalid").1).mp (by decide)⟩

/-- C8: `extract_paragraphs` splits the text into paragraphs at
double-newline boundaries and emits one `(term, fragment)` pair per match
occurrence per paragraph — the pair count is the sum of the per-paragraph
match counts — where the fragment is the paragraph's text from the
match's start offset to the paragraph's end; paragraphs without matches
contribute nothing, and if no thesaurus term occurs anywhere in the text
the result is empty. -/
theorem C8_extract_paragraphs_spec (text : String) (th : Thesaurus) :
    ((extract_paragraphs text th).length =
      ((splitParas text.data).map (fun p => (scanText th p).length)).sum) ∧
    (∀ pr ∈ extract_paragraphs text th,
      ∃ p ∈ splitParas text.data, ∃ m ∈ scanText th p,
        pr = (m.term, String.mk (p.drop m.start))) ∧
    (∀ p ∈ splitParas text.data, ∀ m ∈ scanText th p,
      (m.term, String.mk (p.drop m.start)) ∈ extract_paragraphs text th) ∧
    ((∀ t e, (t, e) ∈ th.data → t.data ≠ [] →
        occursB t.data text.data = false) →
      extract_paragraphs text th = []) := by
  refine ⟨?_, ?_, ?_, ?_⟩
  · unfold extract_paragraphs
    rw [List.length_flatMap]
    congr 1
    refine List.map_congr_left ?_
    intro p hp
    show ((scanText th p).map _).length = (scanText th p).length
    rw [List.length_map]
  · intro pr hpr
    unfold extract_paragraphs at hpr
    rw [List.mem_flatMap] at hpr
    obtain ⟨p, hp, hpr⟩ := hpr
    rw [List.mem_map] at hpr
    obtain ⟨m, hm, hpr⟩ := hpr
    exact ⟨p, hp, m, hm, hpr.symm⟩
  · intro p hp m hm
    unfold extract_paragraphs
    rw [List.mem_flatMap]
    exact ⟨p, hp, List.mem_map.mpr ⟨m, hm, rfl⟩⟩
  · intro hocc
    have hscan : ∀ p ∈ splitParas text.data, scanText th p = [] := by
      intro p hp
      refine scanFuel_eq_nil th.data _ _ _ ?_
      intro t' e' hmem hne i
      have hpocc : occursB t'.data p = false := by
        by_contra hcontra
        rw [Bool.not_eq_false] at hcontra
        have := occursB_of_within hne (splitParas_pieces hp) hcontra
        rw [hocc t' e' hmem hne] at this
        cases this
      exact occursB_false_drop hpocc i
    have hlen : (extract_paragraphs text th).length = 0 := by
      unfold extract_paragraphs
      rw [List.length_flatMap]
      refine List.sum_eq_zero ?_
      intro x hx
      rw [List.mem_map] at hx
      obtain ⟨p, hp, hx⟩ := hx
      rw [← hx]
      show ((scanText th p).map _).length = 0
      rw [hscan p hp]
      rfl
    exact List.length_eq_zero.mp hlen

/-- Witness for C8: the per-occurrence pair for the match in the second
paragraph of a three-paragraph example, and emptiness on a match-free
text. -/
theorem C8_extract_paragraphs_spec_witness :
    ("machine learning", "machine learning and more.") ∈
      extract_paragraphs
        "First paragraph.\n\nThis is about machine learning and more.\n\nThird."
        matcherThesaurus ∧
    extract_paragraphs "Nothing relevant.\n\nStill nothing." matcherThesaurus
      = [] :=
  ⟨by
    have h := (C8_extract_paragraphs_spec
      "First paragraph.\n\nThis is about machine learning and more.\n\nThird."
      matcherThesaurus).2.2.1
      "This is about machine learning and more.".data (by decide)
      ⟨"machine learning",
        ⟨1, "machine learning", some "https://example.com/ml"⟩, 14, 30⟩
      (by decide)
    exact h,
   (C8_extract_paragraphs_spec "Nothing relevant.\n\nStill nothing."
      matcherThesaurus).2.2.2 (by
        intro t e hmem hne
        have hmem' : (t, e) ∈
            [("machine learning",
                (⟨1, "machine learning", some "https://example.com/ml"⟩ :
                  ThesaurusEntry)),
             ("deep learning",
                ⟨2, "deep learning", some "https://example.com/dl"⟩),
             ("artificial intelligence",
                ⟨3, "artificial intelligence",
                  some "https://example.com/ai"⟩)] := hmem
        simp only [List.mem_cons, List.not_mem_nil, or_false] at hmem'
        rcases hmem' with h | h | h
        · injection h with h1 h2
          subst h1
          decide
        · injection h with h1 h2
          subst h1
          decide
        · injection h with h1 h2
          subst h1
          decide)⟩

theorem asNum_eq_some {o : Option Json} {i : Nat} :
    asNum o = some i ↔ o = some (Json.num i) := by
  cases o with
  | none => simp [asNum]
  | some j => cases j <;> simp [asNum]

theorem asStr_eq_some {o : Option Json} {s : String} :
    asStr o = some s ↔ o = some (Json.str s) := by
  cases o with
  | none => simp [asStr]
  | some j => cases j <;> simp [asStr]

theorem asObj_eq_some {o : Option Json} {fs : List (String × Json)} :
    asObj o = some fs ↔ o = some (Json.obj fs) := by
  cases o with
  | none => simp [asObj]
  | some j => cases j <;> simp [asObj]

theorem asOptUrl_shape {o : Option Json} {u : Option String}
    (h : asOptUrl o = some u) :
    o = none ∨ ∃ s, o = some (Json.str s) := by
  cases o with
  | none => exact Or.inl rfl
  | some j =>
    cases j with
    | str s => exact Or.inr ⟨s, rfl⟩
    | num n => simp [asOptUrl] at h
    | obj fs => simp [asOptUrl] at h
    | arr es => simp [asOptUrl] at h
    | jbool b => simp [asOptUrl] at h
    | null => simp [asOptUrl] at h

theorem parseEntry_some_wf {j : Json} {e : ThesaurusEntry}
    (he : parseEntry j = some e) : entryWellFormed j := by
  cases j with
  | obj fs =>
    simp only [parseEntry] at he
    cases ha : asNum (lookupField fs "id") with
    | none => rw [ha] at he; simp at he
    | some i =>
      cases hb : asStr (lookupField fs "nterm") with
      | none => rw [ha, hb] at he; simp at he
      | some nt =>
        cases hc : asOptUrl (lookupField fs "url") with
        | none => rw [ha, hb, hc] at he; simp at he
        | some u =>
          exact ⟨fs, rfl, ⟨i, asNum_eq_some.mp ha⟩,
            ⟨nt, asStr_eq_some.mp hb⟩, asOptUrl_shape hc⟩
  | str s => simp [parseEntry] at he
  | num n => simp [parseEntry] at he
  | arr es => simp [parseEntry] at he
  | jbool b => simp [parseEntry] at he
  | null => simp [parseEntry] at he

theorem parseEntry_wf_some {j : Json} (h : entryWellFormed j) :
    ∃ e, parseEntry j = some e := by
  obtain ⟨fs, rfl, ⟨i, hid⟩, ⟨nt, hnt⟩, hurl⟩ := h
  rcases hurl with hu | ⟨u, hu⟩
  · exact ⟨⟨i, nt, none⟩, by simp [parseEntry, hid, hnt, hu, asNum, asStr,
      asOptUrl]⟩
  · exact ⟨⟨i, nt, some u⟩, by simp [parseEntry, hid, hnt, hu, asNum, asStr,
      asOptUrl]⟩

theorem parseData_some_iff (ds : List (String × Json)) :
    (∃ es, parseData ds = some es) ↔ ∀ kv ∈ ds, entryWellFormed kv.2 := by
  induction ds with
  | nil => simp [parseData]
  | cons kv rest ih =>
    obtain ⟨k, v⟩ := kv
    constructor
    · rintro ⟨es, hes⟩
      simp only [parseData] at hes
      cases hpe : parseEntry v with
      | none => rw [hpe] at hes; simp at hes
      | some e =>
        cases hpd : parseData rest with
        | none => rw [hpe, hpd] at hes; simp at hes
        | some es' =>
          intro kv' hkv'
          rcases List.mem_cons.mp hkv' with rfl | h'
          · exact parseEntry_some_wf hpe
          · exact (ih.mp ⟨es', hpd⟩) kv' h'
    · intro hwf
      obtain ⟨e, he⟩ := parseEntry_wf_some (hwf (k, v) (List.mem_cons_self _ _))
      obtain ⟨es, hes⟩ :=
        ih.mpr (fun kv' h => hwf kv' (List.mem_cons_of_mem _ h))
      exact ⟨(k, e) :: es, by simp [parseData, he, hes]⟩

theorem parseThesaurus_some_iff (j : Json) :
    (∃ th, parseThesaurus j = some th) ↔ thesaurusWellFormed j := by
  cases j with
  | obj fs =>
    constructor
    · rintro ⟨th, hth⟩
      simp only [parseThesaurus] at hth
      cases ha : asStr (lookupField fs "name") with
      | none => rw [ha] at hth; simp at hth
      | some n =>
        cases hb : asObj (lookupField fs "data") with
        | none => rw [ha, hb] at hth; simp at hth
        | some ds =>
          cases hd : parseData ds with
          | none => rw [ha, hb] at hth; simp [hd] at hth
          | some es =>
            exact ⟨fs, rfl, ⟨n, asStr_eq_some.mp ha⟩,
              ⟨ds, asObj_eq_some.mp hb, (parseData_some_iff ds).mp ⟨es, hd⟩⟩⟩
    · rintro ⟨fs', heq, ⟨n, hn⟩, ⟨ds, hd, hwf⟩⟩
      injection heq with heq'
      subst heq'
      obtain ⟨es, hes⟩ := (parseData_some_iff ds).mpr hwf
      exact ⟨⟨n, es⟩, by simp [parseThesaurus, hn, hd, hes, asStr, asObj]⟩
  | str s =>
    constructor
    · rintro ⟨th, hth⟩; simp [parseThesaurus] at hth
    · rintro ⟨fs, heq, _⟩; cases heq
  | num n =>
    constructor
    · rintro ⟨th, hth⟩; simp [parseThesaurus] at hth
    · rintro ⟨fs, heq, _⟩; cases heq
  | arr es =>
    constructor
    · rintro ⟨th, hth⟩; simp [parseThesaurus] at hth
    · rintro ⟨fs, heq, _⟩; cases heq
  | jbool b =>
    constructor
    · rintro ⟨th, hth⟩; simp [parseThesaurus] at hth
    · rintro ⟨fs, heq, _⟩; cases heq
  | null =>
    constructor
    · rintro ⟨th, hth⟩; simp [parseThesaurus] at hth
    · rintro ⟨fs, heq, _⟩; cases heq

theorem parseInput_error_prefix {input : Option Json} {msg : String}
    (h : parseInput input = Except.error msg) :
    ∃ sfx, msg = "Failed to load thesaurus: " ++ sfx := by
  cases input with
  | none =>
    injection h with h'
    exact ⟨"invalid JSON", h'.symm⟩
  | some j =>
    simp only [parseInput] at h
    cases hp : parseThesaurus j with
    | none =>
      rw [hp] at h
      injection h with h'
      exact ⟨"malformed thesaurus", h'.symm⟩
    | some th => rw [hp] at h; cases h

theorem parseInput_error_iff (input : Option Json) :
    (∃ msg, parseInput input = Except.error msg) ↔ badInput input := by
  cases input with
  | none =>
    constructor
    · intro _; exact Or.inl rfl
    · intro _; exact ⟨"Failed to load thesaurus: " ++ "invalid JSON", rfl⟩
  | some j =>
    cases hp : parseThesaurus j with
    | none =>
      constructor
      · intro _
        refine Or.inr ⟨j, rfl, ?_⟩
        intro hwf
        obtain ⟨th, hth⟩ := (parseThesaurus_some_iff j).mpr hwf
        rw [hp] at hth
        cases hth
      · intro _
        exact ⟨"Failed to load thesaurus: " ++ "malformed thesaurus",
          by simp [parseInput, hp]⟩
    | some th =>
      constructor
      · rintro ⟨msg, hmsg⟩
        simp [parseInput, hp] at hmsg
      · rintro (h | ⟨j', hj', hnwf⟩)
        · cases h
        · injection hj' with hj''
          subst hj''
          exact absurd ((parseThesaurus_some_iff j).mp ⟨th, hp⟩) hnwf

theorem parseInput_ok_of_good {input : Option Json} (h : ¬ badInput input) :
    ∃ th, parseInput input = Except.ok th := by
  cases hpi : parseInput input with
  | error msg => exact absurd ((parseInput_error_iff input).mp ⟨msg, hpi⟩) h
  | ok th => exact ⟨th, rfl⟩

theorem except_map_error_iff {α β : Type} (f : α → β) (x : Except String α)
    (msg : String) : x.map f = Except.error msg ↔ x = Except.error msg := by
  cases x with
  | error e => simp [Except.map]
  | ok a => simp [Except.map]

theorem replace_with_links_error_msg {text : String} {th : Thesaurus}
    {lt msg : String} (h : replace_with_links text th lt = Except.error msg) :
    msg = "Invalid link type: " ++ lt := by
  unfold replace_with_links at h
  by_cases hlt : lt ∈ linkTypes
  · rw [if_pos hlt] at h; cases h
  · rw [if_neg hlt] at h
    injection h with h'
    exact h'.symm

theorem invalid_ne_load (lt sfx : String) :
    "Invalid link type: " ++ lt ≠ "Failed to load thesaurus: " ++ sfx := by
  intro h
  have h1 := congrArg String.data h
  rw [String.data_append, String.data_append] at h1
  have h2 : "Invalid link type: ".data = 'I' :: "nvalid link type: ".data := rfl
  have h3 : "Failed to load thesaurus: ".data =
      'F' :: "ailed to load thesaurus: ".data := rfl
  rw [h2, h3] at h1
  simp at h1

theorem map_isLoadError_iff {α β : Type} (f : α → β) (x : Except String α) :
    isLoadError (x.map f) ↔ isLoadError x := by
  unfold isLoadError
  constructor
  · rintro ⟨msg, hmsg, sfx, hsfx⟩
    exact ⟨msg, (except_map_error_iff f x msg).mp hmsg, sfx, hsfx⟩
  · rintro ⟨msg, hmsg, sfx, hsfx⟩
    exact ⟨msg, (except_map_error_iff f x msg).mpr hmsg, sfx, hsfx⟩

theorem parseInput_isLoadError_iff (input : Option Json) :
    isLoadError (parseInput input) ↔ badInput input := by
  constructor
  · rintro ⟨msg, hmsg, _, _⟩
    exact (parseInput_error_iff input).mp ⟨msg, hmsg⟩
  · intro hbad
    obtain ⟨msg, hmsg⟩ := (parseInput_error_iff input).mpr hbad
    exact ⟨msg, hmsg, parseInput_error_prefix hmsg⟩

/-- C9: every entry point that consumes thesaurus JSON fails with a
`LoadError` whose message bears the "Failed to load thesaurus: " prefix
exactly when the input is syntactically invalid JSON or misses the
required structure; well-formed input never produces that error, and for
it `load_thesaurus` returns the name and term count while `build_index`
returns the index of the parsed thesaurus (no partial index exists in the
error case — the loader is shared and runs first). -/
theorem C9_load_error_characterization (input : Option Json) :
    (isLoadError (load_thesaurus input) ↔ badInput input) ∧
    (∀ cs, isLoadError (build_index_json input cs) ↔ badInput input) ∧
    (∀ text rp, isLoadError (find_all_matches_json text input rp) ↔
      badInput input) ∧
    (∀ text lt, isLoadError (replace_with_links_json text input lt) ↔
      badInput input) ∧
    (∀ text, isLoadError (extract_paragraphs_json text input) ↔
      badInput input) ∧
    (¬ badInput input → ∃ th, parseInput input = Except.ok th ∧
      load_thesaurus input = Except.ok (th.name, th.data.length) ∧
      ∀ cs, build_index_json input cs = Except.ok (build_index th cs)) := by
  refine ⟨?_, ?_, ?_, ?_, ?_, ?_⟩
  · unfold load_thesaurus
    rw [map_isLoadError_iff]
    exact parseInput_isLoadError_iff input
  · intro cs
    unfold build_index_json
    rw [map_isLoadError_iff]
    exact parseInput_isLoadError_iff input
  · intro text rp
    unfold find_all_matches_json
    rw [map_isLoadError_iff]
    exact parseInput_isLoadError_iff input
  · intro text lt
    constructor
    · rintro ⟨msg, hmsg, sfx, hsfx⟩
      cases hpi : parseInput input with
      | error m =>
        exact (parseInput_error_iff input).mp ⟨m, hpi⟩
      | ok th =>
        unfold replace_with_links_json at hmsg
        rw [hpi] at hmsg
        have hmsg' : replace_with_links text th lt = Except.error msg := hmsg
        have := replace_with_links_error_msg hmsg'
        rw [this] at hsfx
        exact absurd hsfx (invalid_ne_load lt sfx)
    · intro hbad
      obtain ⟨msg, hmsg, sfx, hsfx⟩ :=
        (parseInput_isLoadError_iff input).mpr hbad
      refine ⟨msg, ?_, sfx, hsfx⟩
      unfold replace_with_links_json
      rw [hmsg]
      rfl
  · intro text
    unfold extract_paragraphs_json
    rw [map_isLoadError_iff]
    exact parseInput_isLoadError_iff input
  · intro hgood
    obtain ⟨th, hth⟩ := parseInput_ok_of_good hgood
    refine ⟨th, hth, ?_, ?_⟩
    · unfold load_thesaurus
      rw [hth]
      rfl
    · intro cs
      unfold build_index_json
      rw [hth]
      rfl

theorem goodJson_wellFormed : thesaurusWellFormed goodJson := by
  refine ⟨_, rfl, ⟨"Test", rfl⟩,
    ⟨[("term1", Json.obj [("id", Json.num 1),
        ("nterm", Json.str "normalized1")])], rfl, ?_⟩⟩
  intro kv hkv
  rw [List.mem_singleton] at hkv
  subst hkv
  exact ⟨_, rfl, ⟨1, rfl⟩, ⟨"normalized1", rfl⟩, Or.inl rfl⟩

/-- Witness for C9: syntactically invalid input yields a LoadError at
every entry point, and the well-formed one-entry input loads as
("Test", 1). -/
theorem C9_load_error_characterization_witness :
    isLoadError (load_thesaurus none) ∧
    isLoadError (replace_with_links_json "text" none "markdown") ∧
    ∃ th, parseInput (some goodJson) = Except.ok th ∧
      load_thesaurus (some goodJson) = Except.ok (th.name, th.data.length) ∧
      ∀ cs, build_index_json (some goodJson) cs =
        Except.ok (build_index th cs) :=
  ⟨(C9_load_error_characterization none).1.mpr (Or.inl rfl),
   ((C9_load_error_characterization none).2.2.2.1 "text" "markdown").mpr
     (Or.inl rfl),
   (C9_load_error_characterization (some goodJson)).2.2.2.2.2 (by
     rintro (h | ⟨j, hj, hnwf⟩)
     · cases h
     · injection hj with hj'
       subst hj'
       exact hnwf goodJson_wellFormed)⟩
